import Mathlib

/-!
Verification of the ormdantic relational projection engine against its
specification.  The Python sources under `ormdantic/schema/base.py` and
`ormdantic/database/storage.py` are shallowly embedded as executable Lean
definitions; theorems below settle the frozen claims about them.
-/

/- ## Stored-field metadata layer (`ormdantic/schema/base.py`) -/
/-- Abstraction of a pydantic field's declared type, keeping exactly the two
facts `get_stored_fields` inspects: whether the type derives from
`ArrayIndexMixin` (checked by `_get_json_paths`) and whether it is a list or
tuple type (checked by `is_list_or_tuple_of`).  In Python every
`ArrayIndexMixin` is also a `List`, but the embedding keeps both flags. -/
structure FieldTy where
  isArrayIndex : Bool
  isCollection : Bool
deriving DecidableEq, Repr

abbrev StoredDef := List String × FieldTy

/-- Embedding of `_get_json_paths` (base.py): an `ArrayIndexMixin` field gets
the pair `['$.<name>[*]', '$']`, any other stored field gets `['$.<name>']`. -/
def getJsonPaths (fieldName : String) (fieldType : FieldTy) : List String :=
  if fieldType.isArrayIndex then ["$." ++ fieldName ++ "[*]", "$"]
  else ["$." ++ fieldName]

/-- Python's `str.startswith`, written on the character lists underlying the
strings so that it evaluates inside the kernel. -/
def strStartsWith (p pre : String) : Bool :=
  pre.data.isPrefixOf p.data

/-- A path segment accepted by `_validate_json_paths`: `'..'`, anything
starting with `'$.'`, or the bare root `'$'`. -/
def validSegment (p : String) : Bool :=
  p == ".." || strStartsWith p "$." || p == "$"

/-- Python `d[k] = v` on an insertion-ordered dict represented as an
association list: replace in place if the key exists, append otherwise. -/
def dictSet (d : List (String × α)) (k : String) (v : α) : List (String × α) :=
  if d.any (fun p => p.1 == k) then
    d.map (fun p => if p.1 == k then (k, v) else p)
  else d ++ [(k, v)]

/-- Python `d.update(u)`: set every binding of `u` into `d` in order. -/
def dictUpdate (d u : List (String × α)) : List (String × α) :=
  u.foldl (fun acc p => dictSet acc p.1 p.2) d

/-- The inputs of `get_stored_fields` for one document type: the type's own
`StoredMixin`-derived annotated fields (in field order), and the value of
`base._stored_fields` for each `PersistentModel` base in the type's MRO,
most-derived class first (the order `inspect.getmro` yields). -/
structure TyMeta where
  ownStoredFields : List (String × FieldTy)
  mroStoredDefs : List (List (String × StoredDef))

/-- The merged stored-field dictionary built by `get_stored_fields` before
path validation: paths derived from the annotations, then updated with each
MRO class's `_stored_fields` iterated in `reversed` (base-first) order, so a
more derived class's binding lands last and wins. -/
def mergedStoredFields (meta : TyMeta) : List (String × StoredDef) :=
  (meta.mroStoredDefs.reverse).foldl dictUpdate
    (meta.ownStoredFields.map (fun p => (p.1, (getJsonPaths p.1 p.2, p.2))))

/-- Embedding of the validation-and-adjustment loop of `get_stored_fields`:
for each field, `_validate_json_paths` raises on any malformed segment; then
for a collection-typed field, `paths[-1]` raises an index error on an empty
path list, and a path not ending in `'$'` and not starting with `'..'` gets
`'$'` appended into the `adjusted` dict. -/
def collectAdjusted : List (String × StoredDef) → Except String (List (String × StoredDef))
  | [] => Except.ok []
  | (fieldName, (paths, fieldType)) :: rest =>
    if paths.any (fun p => !validSegment p) then
      Except.error "Invalid path expression. the path must start with $"
    else if fieldType.isCollection then
      match paths.getLast? with
      | none => Except.error "IndexError: tuple index out of range"
      | some lastSeg =>
        if lastSeg ≠ "$" ∧ paths.head? ≠ some ".." then
          (collectAdjusted rest).map
            (fun tail => (fieldName, (paths ++ ["$"], fieldType)) :: tail)
        else collectAdjusted rest
    else collectAdjusted rest

/-- Embedding of `get_stored_fields` (base.py): merge annotation-derived and
MRO-inherited definitions, validate every path list, and overlay the
collection adjustments (`stored_fields | adjusted`). -/
def getStoredFields (meta : TyMeta) : Except String (List (String × StoredDef)) :=
  let stored := mergedStoredFields meta
  (collectAdjusted stored).map (fun adjusted => dictUpdate stored adjusted)

/-- The collection adjustment applied to a single stored-field definition by
`get_stored_fields` (given that validation passed). -/
def adjustOne (d : StoredDef) : StoredDef :=
  if d.2.isCollection && !(d.1.getLast? == some "$")
      && !(d.1.head? == some "..") && !d.1.isEmpty then
    (d.1 ++ ["$"], d.2)
  else d

/-- The explicit `_stored_fields` definitions for field `f` contributed by the
type's MRO, most derived class first. -/
def explicitDefsFor (meta : TyMeta) (f : String) : List StoredDef :=
  meta.mroStoredDefs.filterMap (fun d => d.lookup f)

/-- The adjusted entry (if any) the `get_stored_fields` loop records for one
already-validated stored-field definition. -/
def adjustTarget (pd : StoredDef) : Option StoredDef :=
  if pd.2.isCollection = true ∧ pd.1.getLast? ≠ none ∧ pd.1.getLast? ≠ some "$"
      ∧ pd.1.head? ≠ some ".." then
    some (pd.1 ++ ["$"], pd.2)
  else none

/-- C7 counterexample input: a type whose only stored-field definition is an
explicit `_stored_fields` entry with an empty extraction-path list on a
non-collection field. -/
def emptyPathMeta : TyMeta := ⟨[], [[("f", ([], ⟨false, false⟩))]]⟩

/-- Concrete input for the C7 witness: one ordinary indexed string field. -/
def simpleMeta : TyMeta := ⟨[("name", ⟨false, false⟩)], []⟩

/-- Concrete input for the C9 witness: field `f` is annotated on the type
itself and redefined by two classes in the MRO; the most derived definition
wins. -/
def overrideMeta : TyMeta :=
  ⟨[("f", ⟨false, false⟩)],
   [[("f", (["$.derived"], ⟨false, false⟩))],
    [("f", (["$.base"], ⟨false, false⟩))]]⟩

/- ## Document values and identifying-field assignment (`schema/base.py`) -/
/-- A runtime pydantic value as seen by `assign_identifying_fields_if_empty`:
a string-like scalar (with a flag for `IdentifyingMixin`, i.e. `IdStr`), a
model object carrying an object identity `oid`, a `PartOfMixin` flag and its
field mapping, a list, a tuple, or Python `None`. -/
inductive PVal where
  | pstr (isId : Bool) (s : String)
  | pmdl (oid : Nat) (isPart : Bool) (tyName : String)
      (fields : List (String × PVal))
  | plist (xs : List PVal)
  | ptup (xs : List PVal)
  | pnone
deriving Repr

/-- State threaded through the assignment pass: a fresh counter (supplying
both new uuid hex strings and object ids of copies) plus the log of object
ids that `setattr` wrote to. -/
structure AsgState where
  ctr : Nat
  writes : List Nat
deriving Repr

/-- Stand-in for `uuid4().hex`: an injective supply of nonempty strings. -/
def freshStr (n : Nat) : String :=
  String.mk (List.replicate (n + 1) 'u')

/-- Python `setattr(obj, fname, v)` on a pydantic model: replace the value
bound to the (existing) field name, keeping field order. -/
def setField (fs : List (String × PVal)) (fname : String) (v : PVal) :
    List (String × PVal) :=
  fs.map (fun p => if p.1 == fname then (p.1, v) else p)

mutual

/-- Embedding of `assign_identifying_fields_if_empty` (base.py): walk the
model's fields in order; for each field take the scalar replacement or else
the vector replacement; on the first replacement materialise `to_be_updated`
(the model itself when `inplace`, otherwise a shallow copy with a fresh
object id) and `setattr` each replacement into it; return `to_be_updated or
model` plus whether an update happened (`replaced is not obj`). -/
def assignPM : Nat → Bool → PVal → AsgState →
    Option (PVal × Bool × AsgState)
  | 0, _, _, _ => none
  | fuel+1, inplace, PVal.pmdl oid isPart ty fields, st =>
    match fieldsLoop fuel inplace oid fields fields none st with
    | none => none
    | some (work, st') =>
      match work with
      | none => some (PVal.pmdl oid isPart ty fields, false, st')
      | some (o, fs) => some (PVal.pmdl o isPart ty fs, true, st')
  | _+1, _, v, st => some (v, false, st)

/-- The field loop of `assign_identifying_fields_if_empty`: `orig` is the
model's field list that `getattr` reads from, `work` the current
`to_be_updated` object (its oid and fields) once created. -/
def fieldsLoop : Nat → Bool → Nat → List (String × PVal) →
    List (String × PVal) → Option (Nat × List (String × PVal)) → AsgState →
    Option (Option (Nat × List (String × PVal)) × AsgState)
  | 0, _, _, _, _, _, _ => none
  | _+1, _, _, _, [], work, st => some (work, st)
  | fuel+1, inplace, oid, orig, (fname, fval) :: rest, work, st =>
    match scalarOrVec fuel inplace fval st with
    | none => none
    | some (r, st2) =>
        match r with
        | none => fieldsLoop fuel inplace oid orig rest work st2
        | some newV =>
          match work with
          | some t =>
            fieldsLoop fuel inplace oid orig rest
              (some (t.1, setField t.2 fname newV))
              ⟨st2.ctr, st2.writes ++ [t.1]⟩
          | none =>
            if inplace then
              fieldsLoop fuel inplace oid orig rest
                (some (oid, setField orig fname newV))
                ⟨st2.ctr, st2.writes ++ [oid]⟩
            else
              fieldsLoop fuel inplace oid orig rest
                (some (st2.ctr, setField orig fname newV))
                ⟨st2.ctr + 1, st2.writes ++ [st2.ctr]⟩

/-- The replacement computed for one field value:
`_replace_scalar_value_if_empty_value(v) or _replace_vector_if_empty_value(v)`
— Python's `or` takes the scalar result when it is a (truthy) replacement and
falls through to the vector replacement when the scalar pass returned
`None`. -/
def scalarOrVec : Nat → Bool → PVal → AsgState →
    Option (Option PVal × AsgState)
  | 0, _, _, _ => none
  | fuel+1, inplace, v, st =>
    match scalarRep fuel inplace v st with
    | none => none
    | some (some v', st') => some (some v', st')
    | some (none, st') => vecRep fuel inplace v st'

/-- Embedding of `_replace_scalar_value_if_empty_value`: an empty
`IdentifyingMixin` value is replaced by a fresh one (`IdStr.new_if_empty`),
a `PartOfMixin` model is assigned recursively and returned only when the
recursion produced a different object; anything else yields no
replacement. -/
def scalarRep : Nat → Bool → PVal → AsgState →
    Option (Option PVal × AsgState)
  | 0, _, _, _ => none
  | fuel+1, inplace, v, st =>
    match v with
    | PVal.pstr true s =>
      if s = "" then
        some (some (PVal.pstr true (freshStr st.ctr)), ⟨st.ctr + 1, st.writes⟩)
      else some (none, st)
    | PVal.pmdl oid isPart ty fields =>
      if isPart then
        match assignPM fuel inplace (PVal.pmdl oid isPart ty fields) st with
        | none => none
        | some (res, changed, st') =>
          some (if changed then some res else none, st')
      else some (none, st)
    | _ => some (none, st)

/-- Embedding of `_replace_vector_if_empty_value`: empty sequences yield no
replacement; otherwise the element loop runs, and a replaced nonempty tuple
is converted back to a tuple (an empty accumulated list would stay a
list). -/
def vecRep : Nat → Bool → PVal → AsgState →
    Option (Option PVal × AsgState)
  | 0, _, _, _ => none
  | fuel+1, inplace, v, st =>
    match v with
    | PVal.plist xs =>
      if xs.isEmpty then some (none, st)
      else
        match vecLoop fuel inplace xs [] none st with
        | none => none
        | some (tbu, st') => some (tbu.map PVal.plist, st')
    | PVal.ptup xs =>
      if xs.isEmpty then some (none, st)
      else
        match vecLoop fuel inplace xs [] none st with
        | none => none
        | some (tbu, st') =>
          match tbu with
          | none => some (none, st')
          | some [] => some (some (PVal.plist []), st')
          | some (a :: l) => some (some (PVal.ptup (a :: l)), st')
    | _ => some (none, st)

/-- The element loop of `_replace_vector_if_empty_value`: on the first
replaced element, `to_be_updated` becomes the list of the original elements
before it; afterwards, for every element, `replaced` is appended — which is
Python `None` when the element needed no replacement. -/
def vecLoop : Nat → Bool → List PVal → List PVal → Option (List PVal) →
    AsgState → Option (Option (List PVal) × AsgState)
  | 0, _, _, _, _, _ => none
  | _+1, _, [], _, tbu, st => some (tbu, st)
  | fuel+1, inplace, x :: rest, processed, tbu, st =>
    match scalarRep fuel inplace x st with
    | none => none
    | some (r, st') =>
      let tbu' := match tbu, r with
        | none, some _ => some processed
        | _, _ => tbu
      let tbu'' := match tbu' with
        | none => none
        | some l => some (l ++ [match r with | some v => v | none => PVal.pnone])
      vecLoop fuel inplace rest (processed ++ [x]) tbu'' st'

end

/- ## Storage façade (`ormdantic/database/storage.py`) -/
/-- The declared type name of a model value. -/
def tyOf : PVal → String
  | PVal.pmdl _ _ ty _ => ty
  | _ => ""

/-- Whether the value is an instance of `PartOfMixin`. -/
def isPartVal : PVal → Bool
  | PVal.pmdl _ p _ _ => p
  | _ => false

/-- The identifying columns of a field list: name and value of each
`IdentifyingMixin`-typed field, in field order. -/
def idColsF (fields : List (String × PVal)) : List (String × String) :=
  fields.filterMap (fun p => match p.2 with
    | PVal.pstr true s => some (p.1, s)
    | _ => none)

/-- Embedding of `get_identifer_of`: the (name, value) pairs of the model's
`IdentifyingMixin`-typed fields, in field order. -/
def idColsOf : PVal → List (String × String)
  | PVal.pmdl _ _ _ fields => idColsF fields
  | _ => []

mutual

/-- Whether object id `o` occurs on some model in the value. -/
def oidIn : Nat → PVal → Bool
  | o, PVal.pmdl oid _ _ fields => o == oid || oidInFields o fields
  | o, PVal.plist xs => oidInList o xs
  | o, PVal.ptup xs => oidInList o xs
  | _, _ => false

def oidInFields : Nat → List (String × PVal) → Bool
  | _, [] => false
  | o, (_, v) :: rest => oidIn o v || oidInFields o rest

def oidInList : Nat → List PVal → Bool
  | _, [] => false
  | o, v :: rest => oidIn o v || oidInList o rest

end

/-- A stored row: `Modelled from the spec:` the SQL layer (`queries.py`,
`connections.py`) is not part of the sources, so the physical table is
modelled as rows carrying the auto-assigned `row_id`, the type's table,
the identifying columns (supplied directly at write time) and the JSON
payload, with the external JSON codec taken as the identity. -/
structure DBRow where
  rowId : Nat
  tyName : String
  ids : List (String × String)
  payload : PVal
deriving Repr

/-- `Modelled from the spec:` the backing store, with monotonically
assigned, never reused row ids. -/
structure DB where
  rows : List DBRow
  nextId : Nat
deriving Repr

/-- `Modelled from the spec:` the upsert statement produced by
`get_query_and_args_for_upserting` keys on the identifying unique columns:
a row with the same type and identifying values is replaced, and
`execute_and_get_last_id` captures the fresh row id. -/
def storeRow (db : DB) (ty : String) (ids : List (String × String))
    (payload : PVal) : Nat × DB :=
  (db.nextId,
   { rows := db.rows.filter (fun r => !(r.tyName == ty && r.ids == ids)) ++
       [⟨db.nextId, ty, ids, payload⟩],
     nextId := db.nextId + 1 })

/-- `Modelled from the spec:` an equality filter (`build_where`) matched
against a row's identifying columns. -/
def whereMatches (w : List (String × String)) (r : DBRow) : Bool :=
  w.all (fun p => r.ids.lookup p.1 == some p.2)

/-- `Modelled from the spec:` `query_records` with an equality-only filter
and no limit: all matching rows, in storage order (`fetch_size` only batches
the cursor and does not restrict the result). -/
def queryRecords (db : DB) (ty : String) (w : List (String × String)) :
    List DBRow :=
  db.rows.filter (fun r => r.tyName == ty && whereMatches w r)

/-- Embedding of `find_object` (storage.py): list all records matching the
filter (the `2` at the call site is `query_records`'s `fetch_size`, not a
limit), raise only when exactly two were found, decode when exactly one was
found, and return `None` otherwise. -/
def findObject (db : DB) (ty : String) (w : List (String × String)) :
    Except String (Option PVal) :=
  let objs := queryRecords db ty w
  if objs.length = 2 then
    Except.error "More than one object is found"
  else
    match objs with
    | [r] => Except.ok (some r.payload)
    | _ => Except.ok none

/-- `Modelled from the spec:` the per-type DELETE+INSERT statement lists the
missing `queries.py` compiles: `get_sql_for_upserting_external_index_table`
and `get_sql_for_upserting_parts_table` (part type name paired with its
statements, in dict order). -/
structure SqlSchema where
  externalSqls : String → List String
  partSqls : String → List (String × List String)

/-- One event on the execution backend. -/
inductive DbEv where
  | openCursor (writable : Bool)
  | primaryUpsert (tyName : String) (rowId : Nat)
  | exec (sql : String) (rootParam : Nat)
deriving Repr, DecidableEq

mutual

/-- Embedding of `_upsert_parts_and_externals` (storage.py): execute the
external-index statements of the type with the bound `__root_row_id`, then
for each nested part type execute its statements and recurse into it,
passing the same root row id down. -/
def upsertCascade (sch : SqlSchema) : Nat → Nat → String → Option (List DbEv)
  | 0, _, _ => none
  | fuel+1, rootId, ty =>
    match upsertCascadeList sch fuel rootId (sch.partSqls ty) with
    | none => none
    | some tail =>
      some ((sch.externalSqls ty).map (fun s => DbEv.exec s rootId) ++ tail)

def upsertCascadeList (sch : SqlSchema) :
    Nat → Nat → List (String × List String) → Option (List DbEv)
  | 0, _, _ => none
  | _+1, _, [] => some []
  | fuel+1, rootId, (pty, sqls) :: rest =>
    match upsertCascade sch fuel rootId pty,
        upsertCascadeList sch fuel rootId rest with
    | some sub, some tail =>
      some (sqls.map (fun s => DbEv.exec s rootId) ++ sub ++ tail)
    | _, _ => none

end

/-- The argument (and result) shape of `upsert_objects`: a single model, a
materialised collection (list or tuple), or a one-shot iterator (a Python
generator) that yields the given models once and is then exhausted. -/
inductive ModelsArg where
  | one (m : PVal)
  | many (ms : List PVal)
  | gen (ms : List PVal)
deriving Repr

/-- The models yielded by the first traversal of `model_list` — the
`tuple(filter(...))` that builds `mixins` sees every model, whichever shape
the argument has. -/
def modelListOf : ModelsArg → List PVal
  | ModelsArg.one m => [m]
  | ModelsArg.many ms => ms
  | ModelsArg.gen ms => ms

/-- The models still obtainable from `model_list` when the `targets`
comprehension runs: building `mixins` already iterated `model_list` once,
which leaves a single model or a materialised collection unchanged but
exhausts a one-shot iterator. -/
def modelsAfterFilter : ModelsArg → List PVal
  | ModelsArg.one m => [m]
  | ModelsArg.many ms => ms
  | ModelsArg.gen _ => []

/-- `assign_identifying_fields_if_empty` applied to each model in order,
non-inplace, threading the fresh counter and the write log. -/
def assignAll (fuel : Nat) : List PVal → AsgState →
    Option (List PVal × AsgState)
  | [], st => some ([], st)
  | m :: rest, st =>
    match assignPM fuel false m st with
    | none => none
    | some (m', _, st') =>
      match assignAll fuel rest st' with
      | none => none
      | some (ms, st'') => some (m' :: ms, st'')

/-- The write loop of `upsert_objects`: for each assigned model, run
`_before_save` (a no-op on `PersistentModel`), execute the primary upsert
capturing the inserted row id, and drive the part/external cascade with that
id. -/
def upsertLoop (sch : SqlSchema) (fuel : Nat) :
    List PVal → DB → Option (DB × List DbEv)
  | [], db => some (db, [])
  | m :: rest, db =>
    let r := (storeRow db (tyOf m) (idColsOf m) m).1
    let db' := (storeRow db (tyOf m) (idColsOf m) m).2
    match upsertCascade sch fuel r (tyOf m) with
    | none => none
    | some casc =>
      match upsertLoop sch fuel rest db' with
      | none => none
      | some (db'', tr) =>
        some (db'', DbEv.primaryUpsert (tyOf m) r :: casc ++ tr)

/-- Embedding of `upsert_objects` (storage.py): reject `PartOfMixin`
instances before anything else (before the cursor is opened and before any
state changes), assign empty identifying fields non-inplace, then open a
writable cursor and run the write loop; a single model in yields a single
model out, a materialised collection yields the tuple of assigned models in
order, and a one-shot iterator — already exhausted by the filter that built
`mixins` — contributes nothing to the `targets` comprehension, so the call
writes nothing and returns the empty tuple.  The returned tuple is
`(result, db, ctr, writes, trace)` so that the error cases expose the
untouched state. -/
def upsertObjects (sch : SqlSchema) (db : DB) (arg : ModelsArg) (ctr : Nat)
    (fuel : Nat) :
    Except String ModelsArg × DB × Nat × List Nat × List DbEv :=
  let models := modelListOf arg
  let mixins := models.filter isPartVal
  if mixins.isEmpty then
    match assignAll fuel (modelsAfterFilter arg) ⟨ctr, []⟩ with
    | none => (Except.error "fuel exhausted", db, ctr, [], [])
    | some (targets, st) =>
      match upsertLoop sch fuel targets db with
      | none =>
        (Except.error "fuel exhausted", db, st.ctr, st.writes,
          [DbEv.openCursor true])
      | some (db', tr) =>
        (Except.ok (match arg with
          | ModelsArg.one _ => ModelsArg.one (targets.headD PVal.pnone)
          | ModelsArg.many _ => ModelsArg.many targets
          | ModelsArg.gen _ => ModelsArg.many targets),
         db', st.ctr, st.writes, DbEv.openCursor true :: tr)
  else
    (Except.error "PartOfMixin could not be saved directly.", db, ctr, [], [])

/-- C4 failing input: three rows of one type all satisfy the empty filter. -/
def threeRowDb : DB :=
  ⟨[⟨1, "T", [], PVal.pmdl 10 false "T" []⟩,
    ⟨2, "T", [], PVal.pmdl 11 false "T" []⟩,
    ⟨3, "T", [], PVal.pmdl 12 false "T" []⟩], 4⟩

/-- A trivial statement schema (no externals, no parts). -/
def trivSch : SqlSchema := ⟨fun _ => [], fun _ => []⟩

/-- The empty store. -/
def emptyDb : DB := ⟨[], 0⟩

/-- A `PartOfMixin` model instance. -/
def partModelEx : PVal := PVal.pmdl 0 true "P" []

/- ### Frame property of the assignment pass (for C10) -/
/-- Between two assignment states: the counter only grows and the write log
only gains entries, each naming an object id allocated at or after `c₀` and
before the final counter — i.e. never a pre-existing object. -/
def Frame (st st' : AsgState) (c₀ : Nat) : Prop :=
  st.ctr ≤ st'.ctr ∧
  ∃ nw, st'.writes = st.writes ++ nw ∧ ∀ x ∈ nw, c₀ ≤ x ∧ x < st'.ctr

/-- Concrete input model for the C10 witness. -/
def c10In : PVal := PVal.pmdl 0 false "T" [("id", PVal.pstr true "")]

/-- Concrete output model for the C10 witness. -/
def c10Out : PVal := PVal.pmdl 2 false "T" [("id", PVal.pstr true (freshStr 1))]

/- ### Preservation lemmas of the assignment pass (for C1) -/
/-- Whether a value is an `IdentifyingMixin` string (the only value category
whose replacement the assignment pass may write into an identifying
column). -/
def isIdStrVal : PVal → Bool
  | PVal.pstr true _ => true
  | _ => false

/-- Field lists related by the assignment pass: same names in the same
order, and each value keeps its identifying-string category. -/
def fieldsRel (orig fs : List (String × PVal)) : Prop :=
  List.Forall₂ (fun p q => q.1 = p.1 ∧ isIdStrVal q.2 = isIdStrVal p.2) orig fs

/-- The store contents after the C1 witness run. -/
def c1Db : DB := ⟨[⟨0, "T", [("id", freshStr 1)], c10Out⟩], 1⟩

/- ### The part/external cascade (for C6) -/
/-- The shape of the cascade trace over a list of part types: each part
type's own DELETE+INSERT statements are executed first, immediately followed
by the complete cascade of that part's own nested parts (at the same root
row id), before the next part type begins. -/
inductive CascadeShape (sch : SqlSchema) (rootId : Nat) :
    List (String × List String) → List DbEv → Prop where
  | nil : CascadeShape sch rootId [] []
  | cons (pty : String) (sqls : List String)
      (rest : List (String × List String)) (sub tail : List DbEv) (fuel : Nat)
      (hsub : upsertCascade sch fuel rootId pty = some sub)
      (htail : CascadeShape sch rootId rest tail) :
      CascadeShape sch rootId ((pty, sqls) :: rest)
        (sqls.map (fun s => DbEv.exec s rootId) ++ sub ++ tail)

/-- Statement schema for the C6 witness: type `C` has one external-index
statement and one nested part type `P` with one statement. -/
def c6Sch : SqlSchema :=
  ⟨fun ty => if ty = "C" then ["extC"] else [],
   fun ty => if ty = "C" then [("P", ["insP"])] else []⟩

/-- The root model for the C6 witness. -/
def c6Root : PVal := PVal.pmdl 0 false "C" []

/- ## Table-creation order (`_iterate_types_for_creating_order`, for C2) -/
/-- The container/part metadata of the registered document types (types are
identified by numbers): the declared `PartOfMixin` container of a type
(`get_container_type`) and the part types occurring among a type's fields
(`get_part_types`). -/
structure PartSchema where
  container : Nat → Option Nat
  parts : Nat → List Nat

mutual

/-- Embedding of `_traverse_all_part_types`: yield, for every part type of
the given type, the part followed depth-first by its own traversal. -/
def travPart (ps : PartSchema) : Nat → Nat → Option (List Nat)
  | 0, _ => none
  | fuel+1, t => travParts ps fuel (ps.parts t)

/-- The generator loop of `_traverse_all_part_types` over a part list. -/
def travParts (ps : PartSchema) : Nat → List Nat → Option (List Nat)
  | 0, _ => none
  | _+1, [] => some []
  | fuel+1, p :: rest =>
    match travPart ps fuel p, travParts ps fuel rest with
    | some sub, some tail => some (p :: sub ++ tail)
    | _, _ => none

end

/-- Python's `container in to_be_created` test after the popleft (`None` is
never a queue member). -/
def containerQueued (ps : PartSchema) (t : Nat) (rest : List Nat) : Bool :=
  match ps.container t with
  | some c => rest.contains c
  | none => false

/-- Python's guarded `to_be_created.remove(part_type)` applied for each
yielded part type: erase the first occurrence when present. -/
def eraseAll (q xs : List Nat) : List Nat :=
  xs.foldl (fun q p => q.erase p) q

/-- Embedding of `_iterate_types_for_creating_order`: pop the first queued
type; if its declared container is still queued, requeue it at the back;
otherwise yield it followed by its full depth-first part traversal, erasing
every traversed part type from the queue. -/
def iterCreate (ps : PartSchema) : Nat → List Nat → Option (List Nat)
  | _, [] => some []
  | 0, _ :: _ => none
  | fuel+1, t :: rest =>
    if containerQueued ps t rest then iterCreate ps fuel (rest ++ [t])
    else
      match travPart ps (fuel+1) t with
      | none => none
      | some sub =>
        match iterCreate ps fuel (eraseAll rest sub) with
        | none => none
        | some out => some (t :: (sub ++ out))

/-- The schema of the C2 counterexample: no parts, no containers. -/
def noPartsPS : PartSchema := ⟨fun _ => none, fun _ => []⟩

/-- One upward step in the declared container relation. -/
def Up (ps : PartSchema) (p c : Nat) : Prop := ps.container p = some c

/-- `c` strictly containing `x` (transitively), following declared
containers upward. -/
abbrev Anc (ps : PartSchema) : Nat → Nat → Prop := Relation.TransGen (Up ps)

/-- Upward reachability, allowing zero steps. -/
abbrev AncEq (ps : PartSchema) : Nat → Nat → Prop :=
  Relation.ReflTransGen (Up ps)

/-- `c` occurs strictly before an occurrence of `x` in the list. -/
def Before (c x : Nat) (l : List Nat) : Prop :=
  ∃ u v, l = u ++ x :: v ∧ c ∈ u

def c2ps : PartSchema :=
  ⟨fun t => if t = 1 then some 0 else none,
   fun c => if c = 0 then [1] else []⟩

/- ### Association-list lemmas for the dict embedding -/
theorem lookup_append (l₁ l₂ : List (String × α)) (k : String) :
    (l₁ ++ l₂).lookup k = (l₁.lookup k).orElse (fun _ => l₂.lookup k) := by
  induction l₁ with
  | nil => simp [List.lookup]
  | cons a rest ih =>
    by_cases h : k = a.1
    · simp [List.lookup, h]
    · have hb : (k == a.1) = false := beq_false_of_ne h
      simp [List.lookup, hb, ih]

theorem lookup_none_of_not_mem_keys (l : List (String × α)) (k : String)
    (h : k ∉ l.map Prod.fst) : l.lookup k = none := by
  induction l with
  | nil => simp [List.lookup]
  | cons a rest ih =>
    simp only [List.map_cons, List.mem_cons] at h
    push_neg at h
    have hb : (k == a.1) = false := beq_false_of_ne h.1
    simp [List.lookup, hb, ih h.2]

theorem lookup_some_mem (l : List (String × α)) (k : String) (v : α)
    (h : l.lookup k = some v) : (k, v) ∈ l := by
  induction l with
  | nil => simp [List.lookup] at h
  | cons a rest ih =>
    by_cases hk : k = a.1
    · subst hk
      simp [List.lookup] at h
      subst h
      exact List.mem_cons_self _ _
    · have hb : (k == a.1) = false := beq_false_of_ne hk
      simp [List.lookup, hb] at h
      exact List.mem_cons_of_mem _ (ih h)

theorem lookup_reverse_of_nodup_keys (l : List (String × α))
    (h : (l.map Prod.fst).Nodup) (k : String) :
    l.reverse.lookup k = l.lookup k := by
  induction l with
  | nil => rfl
  | cons a rest ih =>
    simp only [List.map_cons, List.nodup_cons] at h
    rw [List.reverse_cons, lookup_append, ih h.2]
    by_cases hk : k = a.1
    · subst hk
      rw [lookup_none_of_not_mem_keys rest _ h.1]
      simp [List.lookup]
    · have hb : (k == a.1) = false := beq_false_of_ne hk
      simp only [List.lookup, hb]
      cases rest.lookup k <;> simp [Option.orElse]

theorem lookup_mapSet (l : List (String × α)) (k : String) (v : α)
    (h : l.any (fun p => p.1 == k) = true) :
    (l.map (fun p => if p.1 == k then (k, v) else p)).lookup k = some v := by
  induction l with
  | nil => simp at h
  | cons a rest ih =>
    obtain ⟨ak, av⟩ := a
    simp only [List.map_cons]
    by_cases ha : ak = k
    · subst ha
      rw [if_pos (beq_self_eq_true ak)]
      simp [List.lookup]
    · have hb : (ak == k) = false := beq_false_of_ne ha
      have hb' : (k == ak) = false := beq_false_of_ne (fun hh => ha hh.symm)
      rw [if_neg (by simp [hb])]
      simp only [List.lookup, hb']
      apply ih
      simpa [hb] using h

theorem lookup_mapSet_ne (l : List (String × α)) (k k' : String) (v : α)
    (h : k' ≠ k) :
    (l.map (fun p => if p.1 == k then (k, v) else p)).lookup k' = l.lookup k' := by
  induction l with
  | nil => rfl
  | cons a rest ih =>
    obtain ⟨ak, av⟩ := a
    simp only [List.map_cons]
    by_cases ha : ak = k
    · subst ha
      have hk' : (k' == ak) = false := beq_false_of_ne h
      rw [if_pos (beq_self_eq_true ak)]
      simp only [List.lookup, hk']
      exact ih
    · have hb : (ak == k) = false := beq_false_of_ne ha
      rw [if_neg (by simp [hb])]
      by_cases hk : k' = ak
      · simp [List.lookup, beq_iff_eq.mpr hk]
      · simp only [List.lookup, beq_false_of_ne hk]
        exact ih

theorem dictSet_lookup_self (d : List (String × α)) (k : String) (v : α) :
    (dictSet d k v).lookup k = some v := by
  unfold dictSet
  by_cases h : d.any (fun p => p.1 == k) = true
  · simp only [h, if_true]
    exact lookup_mapSet d k v h
  · simp only [h, Bool.false_eq_true, if_false]
    rw [lookup_append]
    have hnone : d.lookup k = none := by
      apply lookup_none_of_not_mem_keys
      intro hmem
      apply h
      simp only [List.any_eq_true]
      obtain ⟨p, hp, hpk⟩ := List.mem_map.mp hmem
      exact ⟨p, hp, beq_iff_eq.mpr hpk⟩
    simp [hnone, List.lookup, Option.orElse]

theorem dictSet_lookup_ne (d : List (String × α)) (k k' : String) (v : α)
    (h : k' ≠ k) :
    (dictSet d k v).lookup k' = d.lookup k' := by
  unfold dictSet
  by_cases hp : d.any (fun p => p.1 == k) = true
  · simp only [hp, if_true]
    exact lookup_mapSet_ne d k k' v h
  · simp only [hp, Bool.false_eq_true, if_false]
    rw [lookup_append]
    have : List.lookup k' [(k, v)] = none := by
      simp [List.lookup, beq_false_of_ne h]
    rw [this]
    cases d.lookup k' <;> simp [Option.orElse]

theorem dictUpdate_lookup (d u : List (String × α)) (k : String) :
    (dictUpdate d u).lookup k =
      (u.reverse.lookup k).orElse (fun _ => d.lookup k) := by
  induction u generalizing d with
  | nil => simp [dictUpdate, List.lookup, Option.orElse]
  | cons p rest ih =>
    have hstep : dictUpdate d (p :: rest) = dictUpdate (dictSet d p.1 p.2) rest := rfl
    rw [hstep, ih, List.reverse_cons, lookup_append]
    by_cases hk : k = p.1
    · subst hk
      rw [dictSet_lookup_self]
      cases rest.reverse.lookup p.1 <;> simp [List.lookup, Option.orElse]
    · rw [dictSet_lookup_ne d p.1 k p.2 hk]
      have : List.lookup k [(p.1, p.2)] = none := by
        simp [List.lookup, beq_false_of_ne hk]
      rw [this]
      cases rest.reverse.lookup k <;> simp [Option.orElse]

theorem foldUpdate_lookup (base : List (String × α))
    (ds : List (List (String × α))) (k : String)
    (hkeys : ∀ d ∈ ds, (d.map Prod.fst).Nodup) :
    ((ds.reverse).foldl dictUpdate base).lookup k =
      ((ds.filterMap (fun d => d.lookup k)).head?).orElse
        (fun _ => base.lookup k) := by
  induction ds with
  | nil => simp [Option.orElse]
  | cons d rest ih =>
    rw [List.reverse_cons, List.foldl_append]
    simp only [List.foldl_cons, List.foldl_nil]
    rw [dictUpdate_lookup, lookup_reverse_of_nodup_keys d (hkeys d (List.mem_cons_self d rest)) k]
    rw [ih (fun x hx => hkeys x (List.mem_cons_of_mem d hx))]
    simp only [List.filterMap_cons]
    cases hd : d.lookup k with
    | some v => simp [Option.orElse]
    | none => simp [Option.orElse]

theorem dictSet_keys_nodup (d : List (String × α)) (k : String) (v : α)
    (h : (d.map Prod.fst).Nodup) : ((dictSet d k v).map Prod.fst).Nodup := by
  unfold dictSet
  by_cases hp : d.any (fun p => p.1 == k) = true
  · simp only [hp, if_true]
    have : (d.map (fun p => if p.1 == k then (k, v) else p)).map Prod.fst
        = d.map Prod.fst := by
      rw [List.map_map]
      apply List.map_congr_left
      intro a _
      by_cases ha : a.1 = k
      · subst ha
        simp
      · rw [Function.comp_apply, if_neg (by simp [beq_false_of_ne ha])]
    rw [this]
    exact h
  · simp only [hp, Bool.false_eq_true, if_false, List.map_append]
    rw [List.nodup_append]
    refine ⟨h, List.nodup_singleton _, ?_⟩
    intro a ha hk
    simp only [List.map_cons, List.map_nil, List.mem_singleton] at hk
    subst hk
    apply hp
    simp only [List.any_eq_true]
    obtain ⟨p, hpmem, hpk⟩ := List.mem_map.mp ha
    exact ⟨p, hpmem, beq_iff_eq.mpr hpk⟩

theorem dictUpdate_keys_nodup (d u : List (String × α))
    (h : (d.map Prod.fst).Nodup) : ((dictUpdate d u).map Prod.fst).Nodup := by
  induction u generalizing d with
  | nil => exact h
  | cons p rest ih => exact ih _ (dictSet_keys_nodup d p.1 p.2 h)

theorem foldUpdate_keys_nodup (base : List (String × α))
    (ds : List (List (String × α)))
    (h : (base.map Prod.fst).Nodup) :
    ((ds.foldl dictUpdate base).map Prod.fst).Nodup := by
  induction ds generalizing base with
  | nil => exact h
  | cons d rest ih => exact ih _ (dictUpdate_keys_nodup base d h)

theorem mergedStoredFields_keys_nodup (meta : TyMeta)
    (hown : (meta.ownStoredFields.map Prod.fst).Nodup) :
    ((mergedStoredFields meta).map Prod.fst).Nodup := by
  unfold mergedStoredFields
  apply foldUpdate_keys_nodup
  rw [List.map_map]
  exact hown

theorem mergedStoredFields_lookup (meta : TyMeta) (f : String)
    (hkeys : ∀ d ∈ meta.mroStoredDefs, (d.map Prod.fst).Nodup) :
    (mergedStoredFields meta).lookup f =
      ((explicitDefsFor meta f).head?).orElse
        (fun _ =>
          (meta.ownStoredFields.map
            (fun p => (p.1, (getJsonPaths p.1 p.2, p.2)))).lookup f) :=
  foldUpdate_lookup _ meta.mroStoredDefs f hkeys

theorem collectAdjusted_keys_sub (l adj : List (String × StoredDef))
    (h : collectAdjusted l = Except.ok adj) :
    ∀ k ∈ adj.map Prod.fst, k ∈ l.map Prod.fst := by
  induction l generalizing adj with
  | nil =>
    simp only [collectAdjusted] at h
    cases h
    simp
  | cons hd tl ih =>
    obtain ⟨n, paths, ty⟩ := hd
    simp only [collectAdjusted] at h
    by_cases hbad : (paths.any fun p => !validSegment p) = true
    · rw [if_pos hbad] at h
      cases h
    · rw [if_neg hbad] at h
      by_cases hcoll : ty.isCollection = true
      · rw [if_pos hcoll] at h
        cases hlast : paths.getLast? with
        | none =>
          rw [hlast] at h
          cases h
        | some lastSeg =>
          rw [hlast] at h
          simp only [] at h
          by_cases hcond : lastSeg ≠ "$" ∧ paths.head? ≠ some ".."
          · rw [if_pos hcond] at h
            cases htl : collectAdjusted tl with
            | error e => rw [htl] at h; cases h
            | ok adjTl =>
              rw [htl] at h
              cases h
              intro k hk
              simp only [List.map_cons, List.mem_cons] at hk ⊢
              rcases hk with hk | hk
              · exact Or.inl hk
              · exact Or.inr (ih adjTl htl k hk)
          · rw [if_neg hcond] at h
            intro k hk
            exact List.mem_cons_of_mem _ (ih adj h k hk)
      · rw [if_neg hcoll] at h
        intro k hk
        exact List.mem_cons_of_mem _ (ih adj h k hk)

theorem collectAdjusted_keys_nodup (l adj : List (String × StoredDef))
    (h : collectAdjusted l = Except.ok adj)
    (hnd : (l.map Prod.fst).Nodup) : (adj.map Prod.fst).Nodup := by
  induction l generalizing adj with
  | nil =>
    simp only [collectAdjusted] at h
    cases h
    simp
  | cons hd tl ih =>
    obtain ⟨n, paths, ty⟩ := hd
    simp only [List.map_cons, List.nodup_cons] at hnd
    simp only [collectAdjusted] at h
    by_cases hbad : (paths.any fun p => !validSegment p) = true
    · rw [if_pos hbad] at h
      cases h
    · rw [if_neg hbad] at h
      by_cases hcoll : ty.isCollection = true
      · rw [if_pos hcoll] at h
        cases hlast : paths.getLast? with
        | none =>
          rw [hlast] at h
          cases h
        | some lastSeg =>
          rw [hlast] at h
          simp only [] at h
          by_cases hcond : lastSeg ≠ "$" ∧ paths.head? ≠ some ".."
          · rw [if_pos hcond] at h
            cases htl : collectAdjusted tl with
            | error e => rw [htl] at h; cases h
            | ok adjTl =>
              rw [htl] at h
              cases h
              simp only [List.map_cons, List.nodup_cons]
              refine ⟨fun hmem => hnd.1 ?_, ih adjTl htl hnd.2⟩
              exact collectAdjusted_keys_sub tl adjTl htl n hmem
          · rw [if_neg hcond] at h
            exact ih adj h hnd.2
      · rw [if_neg hcoll] at h
        exact ih adj h hnd.2

theorem collectAdjusted_lookup (l adj : List (String × StoredDef))
    (h : collectAdjusted l = Except.ok adj)
    (hnd : (l.map Prod.fst).Nodup) (f : String) :
    adj.lookup f = (l.lookup f).bind adjustTarget := by
  induction l generalizing adj with
  | nil =>
    simp only [collectAdjusted] at h
    cases h
    simp [List.lookup]
  | cons hd tl ih =>
    obtain ⟨n, paths, ty⟩ := hd
    simp only [List.map_cons, List.nodup_cons] at hnd
    simp only [collectAdjusted] at h
    by_cases hbad : (paths.any fun p => !validSegment p) = true
    · rw [if_pos hbad] at h
      cases h
    · rw [if_neg hbad] at h
      by_cases hcoll : ty.isCollection = true
      · rw [if_pos hcoll] at h
        cases hlast : paths.getLast? with
        | none =>
          rw [hlast] at h
          cases h
        | some lastSeg =>
          rw [hlast] at h
          simp only [] at h
          by_cases hcond : lastSeg ≠ "$" ∧ paths.head? ≠ some ".."
          · rw [if_pos hcond] at h
            cases htl : collectAdjusted tl with
            | error e => rw [htl] at h; cases h
            | ok adjTl =>
              rw [htl] at h
              cases h
              by_cases hf : f = n
              · subst hf
                have h1 : List.lookup f ((f, (paths ++ ["$"], ty)) :: adjTl)
                    = some (paths ++ ["$"], ty) := by simp [List.lookup]
                have h2 : List.lookup f ((f, (paths, ty)) :: tl)
                    = some (paths, ty) := by simp [List.lookup]
                rw [h1, h2]
                have : adjustTarget (paths, ty) = some (paths ++ ["$"], ty) := by
                  unfold adjustTarget
                  rw [if_pos]
                  exact ⟨hcoll, by simp [hlast], by simp [hlast]; exact hcond.1,
                    hcond.2⟩
                simp [this]
              · have hb : (f == n) = false := beq_false_of_ne hf
                simp only [List.lookup, hb]
                exact ih adjTl htl hnd.2
          · rw [if_neg hcond] at h
            by_cases hf : f = n
            · subst hf
              have h2 : List.lookup f ((f, (paths, ty)) :: tl)
                  = some (paths, ty) := by simp [List.lookup]
              rw [h2]
              have hnone : adj.lookup f = none := by
                apply lookup_none_of_not_mem_keys
                intro hmem
                exact hnd.1 (collectAdjusted_keys_sub tl adj h f hmem)
              rw [hnone]
              have : adjustTarget (paths, ty) = none := by
                unfold adjustTarget
                rw [if_neg]
                intro ⟨_, _, hne, hdot⟩
                rw [hlast] at hne
                apply hcond
                refine ⟨fun hEq => hne (by rw [hEq]), hdot⟩
              simp [this]
            · have hb : (f == n) = false := beq_false_of_ne hf
              simp only [List.lookup, hb]
              exact ih adj h hnd.2
      · rw [if_neg hcoll] at h
        by_cases hf : f = n
        · subst hf
          have h2 : List.lookup f ((f, (paths, ty)) :: tl)
              = some (paths, ty) := by simp [List.lookup]
          rw [h2]
          have hnone : adj.lookup f = none := by
            apply lookup_none_of_not_mem_keys
            intro hmem
            exact hnd.1 (collectAdjusted_keys_sub tl adj h f hmem)
          rw [hnone]
          have : adjustTarget (paths, ty) = none := by
            unfold adjustTarget
            rw [if_neg]
            intro ⟨hc, _, _, _⟩
            exact hcoll hc
          simp [this]
        · have hb : (f == n) = false := beq_false_of_ne hf
          simp only [List.lookup, hb]
          exact ih adj h hnd.2

theorem collectAdjusted_ok_iff (l : List (String × StoredDef)) :
    (∃ r, collectAdjusted l = Except.ok r) ↔
      ∀ e ∈ l, (∀ p ∈ e.2.1, validSegment p = true) ∧
        (e.2.2.isCollection = true → e.2.1 ≠ []) := by
  induction l with
  | nil =>
    constructor
    · intro _ e he
      cases he
    · intro _
      exact ⟨[], rfl⟩
  | cons hd tl ih =>
    obtain ⟨n, paths, ty⟩ := hd
    simp only [collectAdjusted]
    by_cases hbad : (paths.any fun p => !validSegment p) = true
    · rw [if_pos hbad]
      simp only [List.any_eq_true, Bool.not_eq_true'] at hbad
      obtain ⟨p, hp, hpv⟩ := hbad
      constructor
      · rintro ⟨r, hr⟩
        cases hr
      · intro hall
        have := (hall (n, (paths, ty)) (List.mem_cons_self _ _)).1 p hp
        rw [this] at hpv
        cases hpv
    · rw [if_neg hbad]
      have hvalid : ∀ p ∈ paths, validSegment p = true := by
        intro p hp
        by_contra hc
        apply hbad
        simp only [List.any_eq_true]
        refine ⟨p, hp, ?_⟩
        simp only [Bool.not_eq_true] at hc
        simp [hc]
      by_cases hcoll : ty.isCollection = true
      · rw [if_pos hcoll]
        cases hlast : paths.getLast? with
        | none =>
          have hempty : paths = [] := by
            cases paths with
            | nil => rfl
            | cons a rest => rw [List.getLast?_cons] at hlast; simp at hlast
          simp only []
          constructor
          · rintro ⟨r, hr⟩
            cases hr
          · intro hall
            have := (hall (n, (paths, ty)) (List.mem_cons_self _ _)).2 hcoll
            exact absurd hempty this
        | some lastSeg =>
          have hne : paths ≠ [] := by
            intro hc
            rw [hc] at hlast
            cases hlast
          simp only []
          by_cases hcond : lastSeg ≠ "$" ∧ paths.head? ≠ some ".."
          · rw [if_pos hcond]
            constructor
            · rintro ⟨r, hr⟩
              cases htl : collectAdjusted tl with
              | error e => rw [htl] at hr; cases hr
              | ok adjTl =>
                intro e he
                rcases List.mem_cons.mp he with he | he
                · subst he
                  exact ⟨hvalid, fun _ => hne⟩
                · exact (ih.mp ⟨adjTl, htl⟩) e he
            · intro hall
              obtain ⟨r, hr⟩ := ih.mpr (fun e he => hall e (List.mem_cons_of_mem _ he))
              exact ⟨(n, (paths ++ ["$"], ty)) :: r, by rw [hr]; rfl⟩
          · rw [if_neg hcond]
            constructor
            · rintro ⟨r, hr⟩ e he
              rcases List.mem_cons.mp he with he | he
              · subst he
                exact ⟨hvalid, fun _ => hne⟩
              · exact (ih.mp ⟨r, hr⟩) e he
            · intro hall
              exact ih.mpr (fun e he => hall e (List.mem_cons_of_mem _ he))
      · rw [if_neg hcoll]
        constructor
        · rintro ⟨r, hr⟩ e he
          rcases List.mem_cons.mp he with he | he
          · subst he
            refine ⟨hvalid, fun hc => absurd hc hcoll⟩
          · exact (ih.mp ⟨r, hr⟩) e he
        · intro hall
          exact ih.mpr (fun e he => hall e (List.mem_cons_of_mem _ he))

theorem adjustTarget_orElse (d : StoredDef) :
    (adjustTarget d).orElse (fun _ => some d) = some (adjustOne d) := by
  have hflag : (d.2.isCollection && !(d.1.getLast? == some "$")
      && !(d.1.head? == some "..") && !d.1.isEmpty) = true ↔
      (d.2.isCollection = true ∧ d.1.getLast? ≠ none ∧ d.1.getLast? ≠ some "$"
        ∧ d.1.head? ≠ some "..") := by
    simp only [Bool.and_eq_true, Bool.not_eq_true']
    constructor
    · rintro ⟨⟨⟨h1, h2⟩, h3⟩, h4⟩
      refine ⟨h1, ?_, ?_, ?_⟩
      · intro hc
        have : d.1 = [] := by
          cases hl : d.1 with
          | nil => rfl
          | cons a rest =>
            rw [hl] at hc
            rw [List.getLast?_cons] at hc
            simp at hc
        rw [this] at h4
        simp at h4
      · intro hc
        rw [hc] at h2
        simp at h2
      · intro hc
        rw [hc] at h3
        simp at h3
    · rintro ⟨h1, h2, h3, h4⟩
      refine ⟨⟨⟨h1, ?_⟩, ?_⟩, ?_⟩
      · exact beq_eq_false_iff_ne.mpr h3
      · exact beq_eq_false_iff_ne.mpr h4
      · have : d.1 ≠ [] := by
          intro hc
          apply h2
          rw [hc]
          rfl
        simp [List.isEmpty_iff, this]
  unfold adjustTarget adjustOne
  by_cases h : d.2.isCollection = true ∧ d.1.getLast? ≠ none
      ∧ d.1.getLast? ≠ some "$" ∧ d.1.head? ≠ some ".."
  · rw [if_pos h, if_pos (hflag.mpr h)]
    rfl
  · rw [if_neg h, if_neg ?_]
    · rfl
    · intro hc
      exact h (hflag.mp hc)

/-- C7 counterexample: `get_stored_fields` on a definition whose path list is
empty (and whose field type is not a collection) succeeds instead of raising:
`_validate_json_paths` only rejects malformed segments, and `any` over an
empty path list is vacuously false, so the claimed "raises whenever any
field's extraction-path list is empty" is false. -/
theorem C7_empty_path_accepted_cex :
    getStoredFields emptyPathMeta =
      Except.ok [("f", ([], (⟨false, false⟩ : FieldTy)))] := by rfl

/-- C7 (amended): computing the stored-field metadata raises a fatal error
if and only if some field's merged extraction-path list contains a segment
that is not well-formed (not `..`, not starting with `$.`, and not the bare
root `$`), or a collection-typed field has an empty path list (which fails
as an index error at `paths[-1]`); an empty path list on a non-collection
field is accepted silently, contrary to the original claim. -/
theorem C7_path_validation (meta : TyMeta) :
    (∃ res, getStoredFields meta = Except.ok res) ↔
      ∀ e ∈ mergedStoredFields meta,
        (∀ p ∈ e.2.1, validSegment p = true) ∧
        (e.2.2.isCollection = true → e.2.1 ≠ []) := by
  constructor
  · rintro ⟨res, hres⟩
    apply (collectAdjusted_ok_iff _).mp
    cases hca : collectAdjusted (mergedStoredFields meta) with
    | error e =>
      simp only [getStoredFields, hca] at hres
      cases hres
    | ok adj => exact ⟨adj, rfl⟩
  · intro hall
    obtain ⟨adj, hadj⟩ := (collectAdjusted_ok_iff _).mpr hall
    refine ⟨dictUpdate (mergedStoredFields meta) adj, ?_⟩
    simp only [getStoredFields, hadj]
    rfl

theorem C7_path_validation_w :
    ∃ res, getStoredFields simpleMeta = Except.ok res :=
  (C7_path_validation simpleMeta).mpr (by decide)

/-- C8 counterexample: for an `ArrayIndexMixin` field, `_get_json_paths`
derives the path `['$.codes[*]', '$']`, whose second segment is the bare
root `'$'`: it does not start with `'$.'` (so it is neither the
`'$.<name>'` nor the `'$.<name>[*]'` shape) and it is not the ascend
sentinel `'..'`, falsifying the claim that only those three shapes occur. -/
theorem C8_bare_root_segment_cex :
    ("$" ∈ getJsonPaths "codes" ⟨true, true⟩) ∧
    strStartsWith "$" "$." = false ∧ "$" ≠ ".." := by decide

/-- C8 (amended): every segment of an extraction path derived from a field
annotation by `_get_json_paths` has one of exactly three shapes —
`'$.' ++ name`, `'$.' ++ name ++ '[*]'`, or the bare JSON root `'$'` emitted
after the array segment; the ascend sentinel `'..'` never occurs in a
derived path, and the bare root must be added to the claim's list. -/
theorem C8_derived_path_segments (n : String) (t : FieldTy) (s : String)
    (hs : s ∈ getJsonPaths n t) :
    s = "$." ++ n ∨ s = "$." ++ n ++ "[*]" ∨ s = "$" := by
  unfold getJsonPaths at hs
  by_cases h : t.isArrayIndex = true
  · rw [if_pos h] at hs
    rcases List.mem_cons.mp hs with hs | hs
    · exact Or.inr (Or.inl hs)
    · rcases List.mem_cons.mp hs with hs | hs
      · exact Or.inr (Or.inr hs)
      · cases hs
  · rw [if_neg h] at hs
    rcases List.mem_cons.mp hs with hs | hs
    · exact Or.inl hs
    · cases hs

theorem C8_derived_path_segments_w :
    "$" = "$." ++ "codes" ∨ "$" = "$." ++ "codes" ++ "[*]" ∨ "$" = "$" :=
  C8_derived_path_segments "codes" ⟨true, true⟩ "$" (by decide)

/-- C9: when several classes in a type's MRO define the same stored-field
name in `_stored_fields`, `get_stored_fields` returns the definition of the
most derived class (updates are applied base-first, so the most derived
binding lands last), and any explicit definition overrides the path derived
from the field's own annotation; the returned definition additionally
carries the collection `'$'`-suffix adjustment where applicable. -/
theorem C9_mro_override (meta : TyMeta) (f : String) (d : StoredDef)
    (ds : List StoredDef) (res : List (String × StoredDef))
    (hown : (meta.ownStoredFields.map Prod.fst).Nodup)
    (hkeys : ∀ l ∈ meta.mroStoredDefs, (l.map Prod.fst).Nodup)
    (hok : getStoredFields meta = Except.ok res)
    (hexp : explicitDefsFor meta f = d :: ds) :
    res.lookup f = some (adjustOne d) := by
  cases hca : collectAdjusted (mergedStoredFields meta) with
  | error e =>
    simp only [getStoredFields, hca] at hok
    cases hok
  | ok adj =>
    simp only [getStoredFields, hca] at hok
    simp only [Except.map] at hok
    cases hok
    rw [dictUpdate_lookup]
    have hmk := mergedStoredFields_keys_nodup meta hown
    have hadjnd := collectAdjusted_keys_nodup _ adj hca hmk
    rw [lookup_reverse_of_nodup_keys adj hadjnd]
    rw [collectAdjusted_lookup _ adj hca hmk]
    have hml : (mergedStoredFields meta).lookup f = some d := by
      rw [mergedStoredFields_lookup meta f hkeys, hexp]
      rfl
    rw [hml]
    exact adjustTarget_orElse d

theorem C9_mro_override_w :
    ∃ res, getStoredFields overrideMeta = Except.ok res ∧
      res.lookup "f" = some (adjustOne (["$.derived"], ⟨false, false⟩)) := by
  refine ⟨[("f", (["$.derived"], ⟨false, false⟩))], by rfl, ?_⟩
  exact C9_mro_override overrideMeta "f" (["$.derived"], ⟨false, false⟩)
    [(["$.base"], ⟨false, false⟩)] _ (by decide) (by decide) (by rfl) (by rfl)

/-- C4 (code-bug evidence): with three rows matching the filter,
`find_object` returns `None` and raises nothing.  The guard compares
`len(objs) == 2` assuming the query returned at most two rows, but the `2`
passed to `query_records` is its `fetch_size` (batch size), not a limit, so
all three rows come back, `len(objs) == 2` is false, `len(objs) == 1` is
false, and the function falls through to the no-match branch — contradicting
the claim (and the function's own "More than one object found" fatal-log
intent) that two or more matches raise a fatal error. -/
theorem C4_three_matches_return_none :
    findObject threeRowDb "T" [] = Except.ok none := by rfl

/-- C5 (code-bug evidence): `assign_identifying_fields_if_empty` on a
container whose list field holds a part with an empty identifying field
followed by a part with none: `_replace_vector_if_empty_value` appends
`replaced` — which is Python `None` for an element needing no replacement —
so the untouched second part is replaced by `None` in the returned copy,
contradicting the claim that parts needing no assignment are left equal to
the original. -/
theorem C5_untouched_part_replaced_by_none :
    assignPM 20 false
      (PVal.pmdl 0 false "C" [("parts", PVal.plist [
         PVal.pmdl 1 true "P" [("id", PVal.pstr true "")],
         PVal.pmdl 2 true "P" [("id", PVal.pstr true "x")]])])
      ⟨3, []⟩ =
    some (PVal.pmdl 5 false "C" [("parts", PVal.plist [
         PVal.pmdl 4 true "P" [("id", PVal.pstr true (freshStr 3))],
         PVal.pnone])],
      true, ⟨6, [4, 5]⟩) ∧
    PVal.pnone ≠ PVal.pmdl 2 true "P" [("id", PVal.pstr true "x")] := by
  exact ⟨rfl, fun h => PVal.noConfusion h⟩

/-- C3: `upsert_objects` raises the PartOf rejection error if and only if
some supplied model is a `PartOfMixin` instance, and when it raises, it does
so before any SQL executes: no cursor is opened (empty event trace), the
store, the fresh counter and the write log are untouched. -/
theorem C3_part_of_rejected_before_sql (sch : SqlSchema) (db : DB)
    (arg : ModelsArg) (ctr fuel : Nat) (res : Except String ModelsArg)
    (db' : DB) (ctr' : Nat) (writes : List Nat) (trace : List DbEv)
    (h : upsertObjects sch db arg ctr fuel = (res, db', ctr', writes, trace)) :
    (res = Except.error "PartOfMixin could not be saved directly." ↔
      ∃ m ∈ modelListOf arg, isPartVal m = true) ∧
    (res = Except.error "PartOfMixin could not be saved directly." →
      db' = db ∧ ctr' = ctr ∧ writes = [] ∧ trace = []) := by
  unfold upsertObjects at h
  by_cases hmix : ((modelListOf arg).filter isPartVal).isEmpty = true
  · rw [if_pos hmix] at h
    have hnone : ¬ ∃ m ∈ modelListOf arg, isPartVal m = true := by
      rintro ⟨m, hm, hp⟩
      rw [List.isEmpty_iff] at hmix
      have : m ∈ (modelListOf arg).filter isPartVal :=
        List.mem_filter.mpr ⟨hm, hp⟩
      rw [hmix] at this
      cases this
    have hres : res ≠ Except.error "PartOfMixin could not be saved directly." := by
      intro hc
      subst hc
      cases ha : assignAll fuel (modelsAfterFilter arg) ⟨ctr, []⟩ with
      | none =>
        rw [ha] at h
        simp only [Prod.mk.injEq] at h
        have := h.1
        simp only [Except.error.injEq] at this
        exact absurd this (by decide)
      | some pr =>
        obtain ⟨targets, st⟩ := pr
        rw [ha] at h
        simp only [] at h
        cases hl : upsertLoop sch fuel targets db with
        | none =>
          rw [hl] at h
          simp only [Prod.mk.injEq] at h
          have := h.1
          simp only [Except.error.injEq] at this
          exact absurd this (by decide)
        | some pr2 =>
          obtain ⟨db2, tr2⟩ := pr2
          rw [hl] at h
          simp only [Prod.mk.injEq] at h
          cases h.1
    exact ⟨⟨fun hc => absurd hc hres, fun hc => absurd hc hnone⟩,
      fun hc => absurd hc hres⟩
  · rw [if_neg hmix] at h
    simp only [Prod.mk.injEq] at h
    obtain ⟨h1, h2, h3, h4, h5⟩ := h
    have hsome : ∃ m ∈ modelListOf arg, isPartVal m = true := by
      have hne : (modelListOf arg).filter isPartVal ≠ [] := by
        intro hc
        exact hmix (by rw [List.isEmpty_iff]; exact hc)
      rcases List.exists_mem_of_ne_nil _ hne with ⟨m, hm⟩
      rcases List.mem_filter.mp hm with ⟨hmem, hp⟩
      exact ⟨m, hmem, hp⟩
    exact ⟨⟨fun _ => hsome, fun _ => h1.symm⟩,
      fun _ => ⟨h2.symm, h3.symm, h4.symm, h5.symm⟩⟩

theorem C3_part_of_rejected_before_sql_w :
    ((Except.error "PartOfMixin could not be saved directly."
        : Except String ModelsArg)
        = Except.error "PartOfMixin could not be saved directly." ↔
      ∃ m ∈ modelListOf (ModelsArg.one partModelEx), isPartVal m = true) ∧
    ((Except.error "PartOfMixin could not be saved directly."
        : Except String ModelsArg)
        = Except.error "PartOfMixin could not be saved directly." →
      emptyDb = emptyDb ∧ 0 = 0 ∧ ([] : List Nat) = [] ∧
        ([] : List DbEv) = []) :=
  C3_part_of_rejected_before_sql trivSch emptyDb (ModelsArg.one partModelEx)
    0 5 _ _ _ _ _ rfl

theorem Frame.refl (st : AsgState) (c₀ : Nat) : Frame st st c₀ :=
  ⟨Nat.le_refl _, [], by simp, by simp⟩

theorem Frame.weaken {st st' : AsgState} {c₀ c₁ : Nat}
    (h : Frame st st' c₁) (hc : c₀ ≤ c₁) : Frame st st' c₀ := by
  obtain ⟨hm, nw, hw, hb⟩ := h
  exact ⟨hm, nw, hw, fun x hx => ⟨Nat.le_trans hc (hb x hx).1, (hb x hx).2⟩⟩

theorem Frame.comp {st st₁ st₂ : AsgState} {c₀ : Nat}
    (h1 : Frame st st₁ c₀) (h2 : Frame st₁ st₂ c₀) : Frame st st₂ c₀ := by
  obtain ⟨hm1, nw1, hw1, hb1⟩ := h1
  obtain ⟨hm2, nw2, hw2, hb2⟩ := h2
  refine ⟨Nat.le_trans hm1 hm2, nw1 ++ nw2, by rw [hw2, hw1, List.append_assoc], ?_⟩
  intro x hx
  rcases List.mem_append.mp hx with hx | hx
  · exact ⟨(hb1 x hx).1, Nat.lt_of_lt_of_le (hb1 x hx).2 hm2⟩
  · exact hb2 x hx

theorem Frame.push {st : AsgState} {c₀ x : Nat}
    (hx : c₀ ≤ x) (hlt : x < st.ctr) :
    Frame st ⟨st.ctr, st.writes ++ [x]⟩ c₀ := by
  refine ⟨Nat.le_refl _, [x], rfl, ?_⟩
  intro y hy
  rcases List.mem_singleton.mp hy with rfl
  exact ⟨hx, hlt⟩

theorem asgFrame : ∀ fuel : Nat,
    (∀ v st res ch st', assignPM fuel false v st = some (res, ch, st') →
      Frame st st' st.ctr) ∧
    (∀ oid orig rem work st work' st' c₀,
      fieldsLoop fuel false oid orig rem work st = some (work', st') →
      c₀ ≤ st.ctr →
      (∀ t, work = some t → c₀ ≤ t.1 ∧ t.1 < st.ctr) →
      Frame st st' c₀ ∧ ∀ t, work' = some t → c₀ ≤ t.1 ∧ t.1 < st'.ctr) ∧
    (∀ v st r st', scalarOrVec fuel false v st = some (r, st') →
      Frame st st' st.ctr) ∧
    (∀ v st r st', scalarRep fuel false v st = some (r, st') →
      Frame st st' st.ctr) ∧
    (∀ v st r st', vecRep fuel false v st = some (r, st') →
      Frame st st' st.ctr) ∧
    (∀ xs pr tbu st r st', vecLoop fuel false xs pr tbu st = some (r, st') →
      Frame st st' st.ctr) := by
  intro fuel
  induction fuel with
  | zero =>
    refine ⟨?_, ?_, ?_, ?_, ?_, ?_⟩
    · intro v st res ch st' h
      cases h
    · intro oid orig rem work st work' st' c₀ h _ _
      cases h
    · intro v st r st' h
      cases h
    · intro v st r st' h
      cases h
    · intro v st r st' h
      cases h
    · intro xs pr tbu st r st' h
      cases h
  | succ fuel ih =>
    obtain ⟨ihA, ihF, ihSV, ihS, ihV, ihL⟩ := ih
    refine ⟨?_, ?_, ?_, ?_, ?_, ?_⟩
    · -- assignPM
      intro v st res ch st' h
      cases v with
      | pmdl oid isPart ty fields =>
        simp only [assignPM] at h
        cases hf : fieldsLoop fuel false oid fields fields none st with
        | none => rw [hf] at h; cases h
        | some pr =>
          obtain ⟨work, st₁⟩ := pr
          rw [hf] at h
          simp only [] at h
          have hfr := (ihF oid fields fields none st work st₁ st.ctr hf
            (Nat.le_refl _) (by intro t ht; cases ht)).1
          cases work with
          | none =>
            simp only [] at h
            cases h
            exact hfr
          | some t =>
            simp only [] at h
            cases h
            exact hfr
      | pstr isId sv =>
        simp only [assignPM] at h
        cases h
        exact Frame.refl _ _
      | plist xs =>
        simp only [assignPM] at h
        cases h
        exact Frame.refl _ _
      | ptup xs =>
        simp only [assignPM] at h
        cases h
        exact Frame.refl _ _
      | pnone =>
        simp only [assignPM] at h
        cases h
        exact Frame.refl _ _
    · -- fieldsLoop
      intro oid orig rem work st work' st' c₀ h hc hw
      cases rem with
      | nil =>
        simp only [fieldsLoop] at h
        cases h
        exact ⟨Frame.refl _ _, hw⟩
      | cons hd rest =>
        obtain ⟨fname, fval⟩ := hd
        simp only [fieldsLoop] at h
        cases hsv : scalarOrVec fuel false fval st with
        | none => rw [hsv] at h; cases h
        | some pr =>
          obtain ⟨r, st2⟩ := pr
          rw [hsv] at h
          simp only [] at h
          have fr2 : Frame st st2 c₀ := (ihSV _ _ _ _ hsv).weaken hc
          have hc2 : c₀ ≤ st2.ctr := Nat.le_trans hc fr2.1
          cases r with
          | none =>
            have hw2 : ∀ t, work = some t → c₀ ≤ t.1 ∧ t.1 < st2.ctr := by
              intro t ht
              exact ⟨(hw t ht).1, Nat.lt_of_lt_of_le (hw t ht).2 fr2.1⟩
            obtain ⟨fr3, hwout⟩ := ihF oid orig rest work st2 work' st' c₀ h hc2 hw2
            exact ⟨fr2.comp fr3, hwout⟩
          | some newV =>
            cases work with
            | some t =>
              have ht := hw t rfl
              have ht2 : t.1 < st2.ctr := Nat.lt_of_lt_of_le ht.2 fr2.1
              have frp : Frame st2 ⟨st2.ctr, st2.writes ++ [t.1]⟩ c₀ :=
                Frame.push ht.1 ht2
              have hw3 : ∀ u, (some (t.1, setField t.2 fname newV)) = some u →
                  c₀ ≤ u.1 ∧ u.1 < (⟨st2.ctr, st2.writes ++ [t.1]⟩ : AsgState).ctr := by
                intro u hu
                cases hu
                exact ⟨ht.1, ht2⟩
              obtain ⟨fr3, hwout⟩ := ihF oid orig rest _ _ work' st' c₀ h hc2 hw3
              exact ⟨(fr2.comp frp).comp fr3, hwout⟩
            | none =>
              have frp : Frame st2 ⟨st2.ctr + 1, st2.writes ++ [st2.ctr]⟩ c₀ := by
                refine ⟨Nat.le_succ _, [st2.ctr], rfl, ?_⟩
                intro y hy
                rcases List.mem_singleton.mp hy with rfl
                exact ⟨hc2, Nat.lt_succ_self _⟩
              have hw3 : ∀ u, (some (st2.ctr, setField orig fname newV)) = some u →
                  c₀ ≤ u.1 ∧ u.1 < (⟨st2.ctr + 1, st2.writes ++ [st2.ctr]⟩ : AsgState).ctr := by
                intro u hu
                cases hu
                exact ⟨hc2, Nat.lt_succ_self _⟩
              obtain ⟨fr3, hwout⟩ := ihF oid orig rest _ _ work' st' c₀ h
                (Nat.le_trans hc2 (Nat.le_succ _)) hw3
              exact ⟨(fr2.comp frp).comp fr3, hwout⟩
    · -- scalarOrVec
      intro v st r st' h
      simp only [scalarOrVec] at h
      cases hs : scalarRep fuel false v st with
      | none => rw [hs] at h; cases h
      | some pr =>
        obtain ⟨r1, st1⟩ := pr
        rw [hs] at h
        have fr1 : Frame st st1 st.ctr := ihS _ _ _ _ hs
        cases r1 with
        | some v' =>
          simp only [] at h
          cases h
          exact fr1
        | none =>
          simp only [] at h
          have fr2 : Frame st1 st' st1.ctr := ihV _ _ _ _ h
          exact fr1.comp (fr2.weaken fr1.1)
    · -- scalarRep
      intro v st r st' h
      cases v with
      | pstr isId sv =>
        cases isId with
        | true =>
          simp only [scalarRep] at h
          by_cases hs : sv = ""
          · rw [if_pos hs] at h
            cases h
            exact ⟨Nat.le_succ _, [], by simp, by simp⟩
          · rw [if_neg hs] at h
            cases h
            exact Frame.refl _ _
        | false =>
          simp only [scalarRep] at h
          cases h
          exact Frame.refl _ _
      | pmdl oid isPart ty fields =>
        simp only [scalarRep] at h
        cases isPart with
        | true =>
          rw [if_pos rfl] at h
          cases ha : assignPM fuel false (PVal.pmdl oid true ty fields) st with
          | none => rw [ha] at h; cases h
          | some pr =>
            obtain ⟨resv, changed, st1⟩ := pr
            rw [ha] at h
            simp only [] at h
            cases h
            exact ihA _ _ _ _ _ ha
        | false =>
          rw [if_neg (by simp)] at h
          cases h
          exact Frame.refl _ _
      | plist xs =>
        simp only [scalarRep] at h
        cases h
        exact Frame.refl _ _
      | ptup xs =>
        simp only [scalarRep] at h
        cases h
        exact Frame.refl _ _
      | pnone =>
        simp only [scalarRep] at h
        cases h
        exact Frame.refl _ _
    · -- vecRep
      intro v st r st' h
      cases v with
      | plist xs =>
        simp only [vecRep] at h
        by_cases hxs : xs.isEmpty = true
        · rw [if_pos hxs] at h
          cases h
          exact Frame.refl _ _
        · rw [if_neg hxs] at h
          cases hl : vecLoop fuel false xs [] none st with
          | none => rw [hl] at h; cases h
          | some pr =>
            obtain ⟨tbu, st1⟩ := pr
            rw [hl] at h
            simp only [] at h
            cases h
            exact ihL _ _ _ _ _ _ hl
      | ptup xs =>
        simp only [vecRep] at h
        by_cases hxs : xs.isEmpty = true
        · rw [if_pos hxs] at h
          cases h
          exact Frame.refl _ _
        · rw [if_neg hxs] at h
          cases hl : vecLoop fuel false xs [] none st with
          | none => rw [hl] at h; cases h
          | some pr =>
            obtain ⟨tbu, st1⟩ := pr
            rw [hl] at h
            simp only [] at h
            have frl : Frame st st1 st.ctr := ihL _ _ _ _ _ _ hl
            cases tbu with
            | none =>
              cases h
              exact frl
            | some l =>
              cases l with
              | nil =>
                cases h
                exact frl
              | cons a as =>
                cases h
                exact frl
      | pstr isId sv =>
        simp only [vecRep] at h
        cases h
        exact Frame.refl _ _
      | pmdl oid isPart ty fields =>
        simp only [vecRep] at h
        cases h
        exact Frame.refl _ _
      | pnone =>
        simp only [vecRep] at h
        cases h
        exact Frame.refl _ _
    · -- vecLoop
      intro xs pr tbu st r st' h
      cases xs with
      | nil =>
        simp only [vecLoop] at h
        cases h
        exact Frame.refl _ _
      | cons x rest =>
        simp only [vecLoop] at h
        cases hs : scalarRep fuel false x st with
        | none => rw [hs] at h; cases h
        | some pr1 =>
          obtain ⟨r1, st1⟩ := pr1
          rw [hs] at h
          simp only [] at h
          have fr1 : Frame st st1 st.ctr := ihS _ _ _ _ hs
          have fr2 : Frame st1 st' st1.ctr := ihL _ _ _ _ _ _ h
          exact fr1.comp (fr2.weaken fr1.1)

theorem assignAll_frame (fuel : Nat) : ∀ ms st ts st',
    assignAll fuel ms st = some (ts, st') → Frame st st' st.ctr := by
  intro ms
  induction ms with
  | nil =>
    intro st ts st' h
    simp only [assignAll] at h
    cases h
    exact Frame.refl _ _
  | cons m rest ih =>
    intro st ts st' h
    simp only [assignAll] at h
    cases ha : assignPM fuel false m st with
    | none => rw [ha] at h; cases h
    | some pr =>
      obtain ⟨m', ch, st₁⟩ := pr
      rw [ha] at h
      simp only [] at h
      cases hr : assignAll fuel rest st₁ with
      | none => rw [hr] at h; cases h
      | some pr2 =>
        obtain ⟨ms', st₂⟩ := pr2
        rw [hr] at h
        simp only [] at h
        cases h
        have f1 : Frame st st₁ st.ctr := (asgFrame fuel).1 _ _ _ _ _ ha
        have f2 := ih st₁ _ _ hr
        exact f1.comp (f2.weaken f1.1)

theorem assignAll_rel (fuel : Nat) : ∀ ms st ts st',
    assignAll fuel ms st = some (ts, st') →
    List.Forall₂ (fun m t => ∃ stA stB ch,
      assignPM fuel false m stA = some (t, ch, stB)) ms ts := by
  intro ms
  induction ms with
  | nil =>
    intro st ts st' h
    simp only [assignAll] at h
    cases h
    exact List.Forall₂.nil
  | cons m rest ih =>
    intro st ts st' h
    simp only [assignAll] at h
    cases ha : assignPM fuel false m st with
    | none => rw [ha] at h; cases h
    | some pr =>
      obtain ⟨m', ch, st₁⟩ := pr
      rw [ha] at h
      simp only [] at h
      cases hr : assignAll fuel rest st₁ with
      | none => rw [hr] at h; cases h
      | some pr2 =>
        obtain ⟨ms', st₂⟩ := pr2
        rw [hr] at h
        simp only [] at h
        cases h
        exact List.Forall₂.cons ⟨st, st₁, ch, ha⟩ (ih st₁ _ _ hr)

/-- C10 counterexample: a one-shot iterator argument is exhausted by the
`PartOfMixin` filter (`tuple(filter(...))` iterates `model_list` once)
before the `targets` comprehension runs, so `upsert_objects` on a generator
yielding one ordinary model opens the cursor, writes nothing, leaves the
store and the fresh counter untouched, and returns the empty tuple — one
model in, zero models out, refuting the claimed "an iterable in yields a
tuple out in the same order". -/
theorem C10_generator_input_dropped_cex :
    upsertObjects trivSch emptyDb (ModelsArg.gen [c10In]) 1 20 =
      (Except.ok (ModelsArg.many []), emptyDb, 1, [],
        [DbEv.openCursor true]) ∧
    modelListOf (ModelsArg.gen [c10In]) = [c10In] ∧
    isPartVal c10In = false :=
  ⟨rfl, rfl, rfl⟩

/-- C10 (amended): `upsert_objects` never mutates its caller's models —
identifying fields are assigned on copies, so every `setattr` performed by
a non-inplace run targets a freshly allocated object, never an object
reachable from the inputs — and for a single model or a materialised
collection the result mirrors the input shape: a single model in yields a
single (assigned) model out, a list or tuple in yields the assigned models
in the same order; a one-shot iterator, however, is exhausted by the
`PartOfMixin` filter before the assignment comprehension runs, so the call
performs no writes, leaves the store and the fresh counter unchanged, and
returns the empty tuple. -/
theorem C10_no_mutation_and_shape (sch : SqlSchema) (db : DB)
    (arg : ModelsArg) (ctr fuel : Nat) (out : ModelsArg) (db' : DB)
    (ctr' : Nat) (writes : List Nat) (trace : List DbEv)
    (h : upsertObjects sch db arg ctr fuel =
      (Except.ok out, db', ctr', writes, trace))
    (horig : ∀ m ∈ modelListOf arg, ∀ o, oidIn o m = true → o < ctr) :
    (∀ x ∈ writes, ∀ m ∈ modelListOf arg, oidIn x m = false) ∧
    (∀ m, arg = ModelsArg.one m → ∃ t, out = ModelsArg.one t ∧
      ∃ stA stB ch, assignPM fuel false m stA = some (t, ch, stB)) ∧
    (∀ ms, arg = ModelsArg.many ms → ∃ ts, out = ModelsArg.many ts ∧
      List.Forall₂ (fun m t => ∃ stA stB ch,
        assignPM fuel false m stA = some (t, ch, stB)) ms ts) ∧
    (∀ ms, arg = ModelsArg.gen ms → out = ModelsArg.many [] ∧
      db' = db ∧ ctr' = ctr ∧ writes = [] ∧
      trace = [DbEv.openCursor true]) := by
  unfold upsertObjects at h
  by_cases hmix : ((modelListOf arg).filter isPartVal).isEmpty = true
  · rw [if_pos hmix] at h
    cases ha : assignAll fuel (modelsAfterFilter arg) ⟨ctr, []⟩ with
    | none =>
      rw [ha] at h
      simp only [Prod.mk.injEq] at h
      cases h.1
    | some pr =>
      obtain ⟨targets, st⟩ := pr
      rw [ha] at h
      simp only [] at h
      cases hl : upsertLoop sch fuel targets db with
      | none =>
        rw [hl] at h
        simp only [Prod.mk.injEq] at h
        cases h.1
      | some pr2 =>
        obtain ⟨db₂, tr₂⟩ := pr2
        rw [hl] at h
        simp only [Prod.mk.injEq] at h
        obtain ⟨hout, hdb, hctr, hwr, htr⟩ := h
        have hfr : Frame ⟨ctr, []⟩ st ctr := assignAll_frame fuel _ _ _ _ ha
        have hrel := assignAll_rel fuel _ _ _ _ ha
        refine ⟨?_, ?_, ?_, ?_⟩
        · intro x hx m hm
          obtain ⟨_, nw, hnw, hb⟩ := hfr
          rw [← hwr] at hx
          rw [hnw] at hx
          simp only [List.nil_append] at hx
          have hxc : ctr ≤ x := (hb x hx).1
          by_contra hc
          simp only [Bool.not_eq_false] at hc
          exact absurd (horig m hm x hc) (Nat.not_lt.mpr hxc)
        · intro m hargm
          subst hargm
          simp only [List.headD_cons, Except.ok.injEq] at hout
          simp only [modelsAfterFilter] at hrel
          cases hrel with
          | cons hrelhead hreltail =>
            cases hreltail with
            | nil =>
              simp only [List.headD_cons, Except.ok.injEq] at hout
              exact ⟨_, hout.symm, hrelhead⟩
        · intro ms hargm
          subst hargm
          simp only [Except.ok.injEq] at hout
          exact ⟨targets, hout.symm, hrel⟩
        · intro ms hargm
          subst hargm
          simp only [modelsAfterFilter, assignAll, Option.some.injEq,
            Prod.mk.injEq] at ha
          obtain ⟨hta, hst⟩ := ha
          subst hta
          subst hst
          simp only [upsertLoop, Option.some.injEq, Prod.mk.injEq] at hl
          obtain ⟨hdb2, htr2⟩ := hl
          subst hdb2
          subst htr2
          simp only [Except.ok.injEq] at hout
          refine ⟨hout.symm, hdb.symm, hctr.symm, hwr.symm, ?_⟩
          rw [← htr]
  · rw [if_neg hmix] at h
    simp only [Prod.mk.injEq] at h
    cases h.1

theorem C10_no_mutation_and_shape_w :
    (∀ x ∈ [2], ∀ m ∈ modelListOf (ModelsArg.many [c10In]),
      oidIn x m = false) ∧
    (∀ m, ModelsArg.many [c10In] = ModelsArg.one m →
      ∃ t, ModelsArg.many [c10Out] = ModelsArg.one t ∧
        ∃ stA stB ch, assignPM 20 false m stA = some (t, ch, stB)) ∧
    (∀ ms, ModelsArg.many [c10In] = ModelsArg.many ms →
      ∃ ts, ModelsArg.many [c10Out] = ModelsArg.many ts ∧
        List.Forall₂ (fun m t => ∃ stA stB ch,
          assignPM 20 false m stA = some (t, ch, stB)) ms ts) ∧
    (∀ ms, ModelsArg.many [c10In] = ModelsArg.gen ms →
      ModelsArg.many [c10Out] = ModelsArg.many [] ∧ c1Db = emptyDb ∧
      3 = 1 ∧ ([2] : List Nat) = [] ∧
      [DbEv.openCursor true, DbEv.primaryUpsert "T" 0] =
        [DbEv.openCursor true]) :=
  C10_no_mutation_and_shape trivSch emptyDb (ModelsArg.many [c10In]) 1 20
    _ _ _ _ _ rfl
    (by
      intro m hm o ho
      simp only [modelListOf, List.mem_singleton] at hm
      subst hm
      simp only [c10In, oidIn, oidInFields, oidInList, Bool.or_eq_true,
        beq_iff_eq] at ho
      rcases ho with ho | ho | ho
      · omega
      · cases ho
      · cases ho)

theorem fieldsRel_self (l : List (String × PVal)) : fieldsRel l l := by
  unfold fieldsRel
  rw [List.forall₂_same]
  intro x _
  exact ⟨rfl, rfl⟩

theorem assignPM_shape (fuel : Nat) (ip : Bool) (oid : Nat) (isPart : Bool)
    (ty : String) (fields : List (String × PVal)) (st : AsgState)
    (res : PVal) (ch : Bool) (st' : AsgState)
    (h : assignPM fuel ip (PVal.pmdl oid isPart ty fields) st
      = some (res, ch, st')) :
    ∃ o' fs', res = PVal.pmdl o' isPart ty fs' := by
  cases fuel with
  | zero => cases h
  | succ fuel =>
    simp only [assignPM] at h
    cases hf : fieldsLoop fuel ip oid fields fields none st with
    | none => rw [hf] at h; cases h
    | some pr =>
      obtain ⟨work, st₁⟩ := pr
      rw [hf] at h
      simp only [] at h
      cases work with
      | none =>
        cases h
        exact ⟨oid, fields, rfl⟩
      | some t =>
        cases h
        exact ⟨t.1, t.2, rfl⟩

theorem scalarRep_cat (fuel : Nat) (ip : Bool) (v v' : PVal)
    (st st' : AsgState) (h : scalarRep fuel ip v st = some (some v', st')) :
    isIdStrVal v' = isIdStrVal v := by
  cases fuel with
  | zero => cases h
  | succ fuel =>
    cases v with
    | pstr isId sv =>
      cases isId with
      | true =>
        simp only [scalarRep] at h
        by_cases hs : sv = ""
        · rw [if_pos hs] at h
          cases h
          rfl
        · rw [if_neg hs] at h
          cases h
      | false =>
        simp only [scalarRep] at h
        cases h
    | pmdl oid isPart ty fields =>
      simp only [scalarRep] at h
      cases isPart with
      | true =>
        rw [if_pos rfl] at h
        cases ha : assignPM fuel ip (PVal.pmdl oid true ty fields) st with
        | none => rw [ha] at h; cases h
        | some pr =>
          obtain ⟨resv, changed, st₁⟩ := pr
          rw [ha] at h
          simp only [] at h
          obtain ⟨o', fs', hshape⟩ :=
            assignPM_shape fuel ip oid true ty fields st resv changed st₁ ha
          cases changed with
          | true =>
            simp only [if_pos] at h
            cases h
            rw [hshape]
            rfl
          | false =>
            simp only [Bool.false_eq_true, if_false] at h
            cases h
      | false =>
        rw [if_neg (by simp)] at h
        cases h
    | plist xs => simp only [scalarRep] at h; cases h
    | ptup xs => simp only [scalarRep] at h; cases h
    | pnone => simp only [scalarRep] at h; cases h

theorem vecRep_cat (fuel : Nat) (ip : Bool) (v v' : PVal)
    (st st' : AsgState) (h : vecRep fuel ip v st = some (some v', st')) :
    isIdStrVal v' = false ∧ isIdStrVal v = false := by
  cases fuel with
  | zero => cases h
  | succ fuel =>
    cases v with
    | plist xs =>
      simp only [vecRep] at h
      by_cases hxs : xs.isEmpty = true
      · rw [if_pos hxs] at h
        cases h
      · rw [if_neg hxs] at h
        cases hl : vecLoop fuel ip xs [] none st with
        | none => rw [hl] at h; cases h
        | some pr =>
          obtain ⟨tbu, st₁⟩ := pr
          rw [hl] at h
          simp only [] at h
          cases tbu with
          | none => cases h
          | some l =>
            cases h
            exact ⟨rfl, rfl⟩
    | ptup xs =>
      simp only [vecRep] at h
      by_cases hxs : xs.isEmpty = true
      · rw [if_pos hxs] at h
        cases h
      · rw [if_neg hxs] at h
        cases hl : vecLoop fuel ip xs [] none st with
        | none => rw [hl] at h; cases h
        | some pr =>
          obtain ⟨tbu, st₁⟩ := pr
          rw [hl] at h
          simp only [] at h
          cases tbu with
          | none => cases h
          | some l =>
            cases l with
            | nil =>
              cases h
              exact ⟨rfl, rfl⟩
            | cons a as =>
              cases h
              exact ⟨rfl, rfl⟩
    | pstr isId sv => simp only [vecRep] at h; cases h
    | pmdl o p t f => simp only [vecRep] at h; cases h
    | pnone => simp only [vecRep] at h; cases h

theorem scalarOrVec_cat (fuel : Nat) (ip : Bool) (v v' : PVal)
    (st st' : AsgState) (h : scalarOrVec fuel ip v st = some (some v', st')) :
    isIdStrVal v' = isIdStrVal v := by
  cases fuel with
  | zero => cases h
  | succ fuel =>
    simp only [scalarOrVec] at h
    cases hs : scalarRep fuel ip v st with
    | none => rw [hs] at h; cases h
    | some pr =>
      obtain ⟨r1, st₁⟩ := pr
      rw [hs] at h
      cases r1 with
      | some w =>
        simp only [] at h
        cases h
        exact scalarRep_cat fuel ip v _ st st' hs
      | none =>
        simp only [] at h
        obtain ⟨h1, h2⟩ := vecRep_cat fuel ip v v' st₁ st' h
        rw [h1, h2]

theorem setField_rel_absent (orig' fs' : List (String × PVal))
    (fname : String) (newV : PVal) (hrest : fieldsRel orig' fs')
    (habs : ∀ r ∈ orig', r.1 ≠ fname) :
    fieldsRel orig' (setField fs' fname newV) := by
  induction hrest with
  | nil => exact List.Forall₂.nil
  | cons hpq2 hrest2 ih2 =>
    rename_i p2 q2 o2 f2
    simp only [setField, List.map_cons]
    have hq2 : q2.1 ≠ fname := by
      rw [hpq2.1]
      exact habs p2 (List.mem_cons_self _ _)
    rw [if_neg (by simp [beq_false_of_ne hq2])]
    exact List.Forall₂.cons hpq2
      (ih2 (fun r hr => habs r (List.mem_cons_of_mem _ hr)))

theorem setField_rel (orig fs : List (String × PVal)) (fname : String)
    (fval newV : PVal) (hrel : fieldsRel orig fs)
    (hnd : (orig.map Prod.fst).Nodup) (hmem : (fname, fval) ∈ orig)
    (hcat : isIdStrVal newV = isIdStrVal fval) :
    fieldsRel orig (setField fs fname newV) := by
  induction hrel with
  | nil => cases hmem
  | cons hpq hrest ih =>
    rename_i p q orig' fs'
    simp only [List.map_cons, List.nodup_cons] at hnd
    simp only [setField, List.map_cons]
    by_cases hq : q.1 = fname
    · rw [if_pos (beq_iff_eq.mpr hq)]
      have hp1 : p.1 = fname := by rw [← hpq.1, hq]
      have hfv : fval = p.2 := by
        rcases List.mem_cons.mp hmem with hm | hm
        · rw [← hm]
        · exfalso
          apply hnd.1
          rw [hp1]
          exact List.mem_map.mpr ⟨(fname, fval), hm, rfl⟩
      refine List.Forall₂.cons ⟨hpq.1, ?_⟩ ?_
      · rw [hcat, hfv]
      · have habs : ∀ r ∈ orig', r.1 ≠ fname := by
          intro r hr hc
          apply hnd.1
          rw [hp1, ← hc]
          exact List.mem_map.mpr ⟨r, hr, rfl⟩
        exact setField_rel_absent orig' fs' fname newV hrest habs
    · rw [if_neg (by simp [beq_false_of_ne hq])]
      have hp1 : p.1 ≠ fname := by rw [← hpq.1]; exact hq
      have hmem' : (fname, fval) ∈ orig' := by
        rcases List.mem_cons.mp hmem with hm | hm
        · exfalso
          apply hp1
          rw [← hm]
        · exact hm
      exact List.Forall₂.cons hpq (ih hnd.2 hmem')

theorem fieldsLoop_rel : ∀ fuel oid orig rem work st work' st',
    fieldsLoop fuel false oid orig rem work st = some (work', st') →
    (∀ pr ∈ rem, pr ∈ orig) →
    (orig.map Prod.fst).Nodup →
    (∀ t, work = some t → fieldsRel orig t.2) →
    ∀ t, work' = some t → fieldsRel orig t.2 := by
  intro fuel
  induction fuel with
  | zero =>
    intro oid orig rem work st work' st' h
    cases h
  | succ fuel ih =>
    intro oid orig rem work st work' st' h hsub hnd hw
    cases rem with
    | nil =>
      simp only [fieldsLoop] at h
      cases h
      exact hw
    | cons hd rest =>
      obtain ⟨fname, fval⟩ := hd
      simp only [fieldsLoop] at h
      cases hsv : scalarOrVec fuel false fval st with
      | none => rw [hsv] at h; cases h
      | some pr =>
        obtain ⟨r, st2⟩ := pr
        rw [hsv] at h
        simp only [] at h
        have hsub' : ∀ pr ∈ rest, pr ∈ orig :=
          fun pr hpr => hsub pr (List.mem_cons_of_mem _ hpr)
        cases r with
        | none => exact ih oid orig rest work st2 work' st' h hsub' hnd hw
        | some newV =>
          have hcat : isIdStrVal newV = isIdStrVal fval :=
            scalarOrVec_cat fuel false fval newV st st2 hsv
          have hmemf : (fname, fval) ∈ orig := hsub _ (List.mem_cons_self _ _)
          cases work with
          | some t =>
            refine ih oid orig rest _ _ work' st' h hsub' hnd ?_
            intro u hu
            cases hu
            exact setField_rel orig t.2 fname fval newV (hw t rfl) hnd hmemf hcat
          | none =>
            refine ih oid orig rest _ _ work' st' h hsub' hnd ?_
            intro u hu
            cases hu
            exact setField_rel orig orig fname fval newV (fieldsRel_self orig)
              hnd hmemf hcat

theorem assignPM_rel (fuel : Nat) (oid : Nat) (isPart : Bool) (ty : String)
    (fields : List (String × PVal)) (st : AsgState) (res : PVal) (ch : Bool)
    (st' : AsgState)
    (h : assignPM fuel false (PVal.pmdl oid isPart ty fields) st
      = some (res, ch, st'))
    (hnd : (fields.map Prod.fst).Nodup) :
    ∃ o' fs', res = PVal.pmdl o' isPart ty fs' ∧ fieldsRel fields fs' := by
  cases fuel with
  | zero => cases h
  | succ fuel =>
    simp only [assignPM] at h
    cases hf : fieldsLoop fuel false oid fields fields none st with
    | none => rw [hf] at h; cases h
    | some pr =>
      obtain ⟨work, st₁⟩ := pr
      rw [hf] at h
      simp only [] at h
      cases work with
      | none =>
        cases h
        exact ⟨oid, fields, rfl, fieldsRel_self fields⟩
      | some t =>
        cases h
        refine ⟨t.1, t.2, rfl, ?_⟩
        exact fieldsLoop_rel fuel oid fields fields none st (some t) _ hf
          (fun pr hpr => hpr) hnd (fun u hu => by cases hu) t rfl

theorem isIdStrVal_shape (v : PVal) (h : isIdStrVal v = true) :
    ∃ s, v = PVal.pstr true s := by
  cases v with
  | pstr isId s =>
    cases isId with
    | true => exact ⟨s, rfl⟩
    | false => cases h
  | pmdl o p t f => cases h
  | plist xs => cases h
  | ptup xs => cases h
  | pnone => cases h

theorem idColsF_keys_of_rel (orig fs : List (String × PVal))
    (h : fieldsRel orig fs) :
    (idColsF fs).map Prod.fst = (idColsF orig).map Prod.fst := by
  induction h with
  | nil => rfl
  | cons hpq hrest ih =>
    rename_i p q orig' fs'
    simp only [idColsF, List.filterMap_cons]
    cases hcat : isIdStrVal p.2 with
    | true =>
      obtain ⟨s, hs⟩ := isIdStrVal_shape p.2 hcat
      obtain ⟨s', hs'⟩ := isIdStrVal_shape q.2 (by rw [hpq.2, hcat])
      rw [hs, hs']
      simp only [List.map_cons]
      have hih := ih
      simp only [idColsF] at hih
      rw [hpq.1, hih]
    | false =>
      have hq : isIdStrVal q.2 = false := by rw [hpq.2, hcat]
      have hp2 : (match p.2 with
          | PVal.pstr true s => some (p.1, s)
          | _ => none) = (none : Option (String × String)) := by
        cases hv : p.2 with
        | pstr isId s =>
          cases isId with
          | true => rw [hv] at hcat; cases hcat
          | false => rfl
        | pmdl o pp t f => rfl
        | plist xs => rfl
        | ptup xs => rfl
        | pnone => rfl
      have hq2 : (match q.2 with
          | PVal.pstr true s => some (q.1, s)
          | _ => none) = (none : Option (String × String)) := by
        cases hv : q.2 with
        | pstr isId s =>
          cases isId with
          | true => rw [hv] at hq; cases hq
          | false => rfl
        | pmdl o pp t f => rfl
        | plist xs => rfl
        | ptup xs => rfl
        | pnone => rfl
      rw [hp2, hq2]
      exact ih

theorem idColsF_keys_sublist (l : List (String × PVal)) :
    List.Sublist ((idColsF l).map Prod.fst) (l.map Prod.fst) := by
  induction l with
  | nil => exact List.Sublist.refl _
  | cons p rest ih =>
    simp only [idColsF, List.filterMap_cons, List.map_cons]
    cases hv : p.2 with
    | pstr isId s =>
      cases isId with
      | true =>
        simp only [List.map_cons]
        exact List.Sublist.cons₂ _ ih
      | false => exact List.Sublist.cons _ ih
    | pmdl o pp t f => exact List.Sublist.cons _ ih
    | plist xs => exact List.Sublist.cons _ ih
    | ptup xs => exact List.Sublist.cons _ ih
    | pnone => exact List.Sublist.cons _ ih

theorem lookup_self_of_nodup {β : Type} (al : List (String × β))
    (hnd : (al.map Prod.fst).Nodup) :
    ∀ p ∈ al, al.lookup p.1 = some p.2 := by
  induction al with
  | nil => intro p hp; cases hp
  | cons a rest ih =>
    simp only [List.map_cons, List.nodup_cons] at hnd
    intro p hp
    rcases List.mem_cons.mp hp with hp | hp
    · subst hp
      simp [List.lookup]
    · have hne : p.1 ≠ a.1 := by
        intro hc
        apply hnd.1
        rw [← hc]
        exact List.mem_map.mpr ⟨p, hp, rfl⟩
      simp only [List.lookup, beq_false_of_ne hne]
      exact ih hnd.2 p hp

/-- C1: for a non-`PartOfMixin` document, upserting it and then calling
`find_object` with the equality filter on its identifying fields (as
assigned at write time) returns exactly the stored document: the
write-then-read round trip is the identity on the stored payload.  The SQL
layer is modelled from the spec (replace-by-identifying-key store, identity
codec); the hypotheses ask that the document's field names are unique and
that no prior row of its type exists in the store. -/
theorem C1_upsert_find_roundtrip (sch : SqlSchema) (db : DB) (ctr fuel : Nat)
    (oid : Nat) (ty : String) (fields : List (String × PVal)) (m' : PVal)
    (db' : DB) (ctr' : Nat) (w : List Nat) (tr : List DbEv)
    (hfnd : (fields.map Prod.fst).Nodup)
    (hdb : ∀ r ∈ db.rows, r.tyName ≠ ty)
    (h : upsertObjects sch db (ModelsArg.one (PVal.pmdl oid false ty fields))
        ctr fuel = (Except.ok (ModelsArg.one m'), db', ctr', w, tr)) :
    findObject db' ty (idColsOf m') = Except.ok (some m') := by
  unfold upsertObjects at h
  rw [if_pos (by simp [modelListOf, isPartVal])] at h
  cases ha : assignAll fuel
      (modelsAfterFilter (ModelsArg.one (PVal.pmdl oid false ty fields)))
      ⟨ctr, []⟩ with
  | none =>
    rw [ha] at h
    simp only [Prod.mk.injEq] at h
    cases h.1
  | some pr =>
    obtain ⟨targets, st⟩ := pr
    rw [ha] at h
    simp only [] at h
    -- extract the single assignment
    simp only [modelsAfterFilter, assignAll] at ha
    cases hA : assignPM fuel false (PVal.pmdl oid false ty fields)
        ⟨ctr, []⟩ with
    | none => rw [hA] at ha; cases ha
    | some prA =>
      obtain ⟨t, ch, st₁⟩ := prA
      rw [hA] at ha
      simp only [assignAll] at ha
      cases ha
      -- run the write loop on the singleton
      simp only [upsertLoop] at h
      cases hc : upsertCascade sch fuel
          ((storeRow db (tyOf t) (idColsOf t) t).1) (tyOf t) with
      | none =>
        rw [hc] at h
        simp only [Prod.mk.injEq] at h
        cases h.1
      | some casc =>
        rw [hc] at h
        simp only [upsertLoop, Prod.mk.injEq, Except.ok.injEq,
          List.headD_cons] at h
        obtain ⟨hout, hdbeq, _, _, _⟩ := h
        have ht : t = m' := by
          cases hout
          rfl
        subst ht
        obtain ⟨o', fs', hshape, hrel⟩ :=
          assignPM_rel fuel oid false ty fields ⟨ctr, []⟩ t ch _ hA hfnd
        subst hshape
        have htyt : tyOf (PVal.pmdl o' false ty fs') = ty := rfl
        have hids : idColsOf (PVal.pmdl o' false ty fs') = idColsF fs' := rfl
        have hknd : ((idColsF fs').map Prod.fst).Nodup := by
          rw [idColsF_keys_of_rel fields fs' hrel]
          exact (idColsF_keys_sublist fields).nodup hfnd
        rw [← hdbeq]
        unfold findObject queryRecords storeRow
        simp only [htyt, hids]
        rw [List.filter_append]
        have hold : (db.rows.filter
            (fun r => !(r.tyName == ty && r.ids == idColsF fs'))).filter
            (fun r => r.tyName == ty && whereMatches (idColsF fs') r) = [] := by
          rw [List.filter_eq_nil_iff]
          intro r hr
          have hrdb : r ∈ db.rows := List.mem_of_mem_filter hr
          have : (r.tyName == ty) = false := beq_false_of_ne (hdb r hrdb)
          simp [this]
        rw [hold]
        have hnew : (List.filter
            (fun r => r.tyName == ty && whereMatches (idColsF fs') r)
            [⟨db.nextId, ty, idColsF fs', PVal.pmdl o' false ty fs'⟩]) =
            [⟨db.nextId, ty, idColsF fs', PVal.pmdl o' false ty fs'⟩] := by
          simp only [List.filter, beq_self_eq_true, Bool.true_and]
          have : whereMatches (idColsF fs')
              ⟨db.nextId, ty, idColsF fs', PVal.pmdl o' false ty fs'⟩ = true := by
            unfold whereMatches
            rw [List.all_eq_true]
            intro p hp
            have := lookup_self_of_nodup (idColsF fs') hknd p hp
            simp only [] at this ⊢
            rw [this]
            simp
          rw [this]
        rw [hnew]
        simp

theorem C1_upsert_find_roundtrip_w :
    findObject c1Db "T" (idColsOf c10Out) = Except.ok (some c10Out) :=
  C1_upsert_find_roundtrip trivSch emptyDb 1 20 0 "T"
    [("id", PVal.pstr true "")] c10Out c1Db _ _ _
    (by decide)
    (by intro r hr; simp [emptyDb] at hr)
    rfl

theorem cascade_props : ∀ fuel : Nat,
    (∀ rootId ty tr, upsertCascade sch fuel rootId ty = some tr →
      (∀ s r, DbEv.exec s r ∈ tr → r = rootId) ∧
      ∃ tail, tr = (sch.externalSqls ty).map (fun s => DbEv.exec s rootId)
          ++ tail ∧
        CascadeShape sch rootId (sch.partSqls ty) tail) ∧
    (∀ rootId l tr, upsertCascadeList sch fuel rootId l = some tr →
      (∀ s r, DbEv.exec s r ∈ tr → r = rootId) ∧
      CascadeShape sch rootId l tr) := by
  intro fuel
  induction fuel with
  | zero =>
    constructor
    · intro rootId ty tr h
      cases h
    · intro rootId l tr h
      cases h
  | succ fuel ih =>
    obtain ⟨ihC, ihL⟩ := ih
    constructor
    · intro rootId ty tr h
      simp only [upsertCascade] at h
      cases hl : upsertCascadeList sch fuel rootId (sch.partSqls ty) with
      | none => rw [hl] at h; cases h
      | some tail =>
        rw [hl] at h
        simp only [] at h
        cases h
        obtain ⟨hroot, hshape⟩ := ihL rootId _ tail hl
        refine ⟨?_, tail, rfl, hshape⟩
        intro s r hm
        rcases List.mem_append.mp hm with hm | hm
        · obtain ⟨x, _, hx⟩ := List.mem_map.mp hm
          cases hx
          rfl
        · exact hroot s r hm
    · intro rootId l tr h
      cases l with
      | nil =>
        simp only [upsertCascadeList] at h
        cases h
        refine ⟨?_, CascadeShape.nil⟩
        intro s r hm
        cases hm
      | cons hd rest =>
        obtain ⟨pty, sqls⟩ := hd
        simp only [upsertCascadeList] at h
        cases hc : upsertCascade sch fuel rootId pty with
        | none => rw [hc] at h; cases h
        | some sub =>
          cases hr : upsertCascadeList sch fuel rootId rest with
          | none => rw [hc, hr] at h; cases h
          | some tail =>
            rw [hc, hr] at h
            simp only [] at h
            cases h
            obtain ⟨hroot1, _⟩ := ihC rootId pty sub hc
            obtain ⟨hroot2, hshape2⟩ := ihL rootId rest tail hr
            refine ⟨?_, CascadeShape.cons pty sqls rest sub tail fuel hc hshape2⟩
            intro s r hm
            rcases List.mem_append.mp hm with hm | hm
            · rcases List.mem_append.mp hm with hm | hm
              · obtain ⟨x, _, hx⟩ := List.mem_map.mp hm
                cases hx
                rfl
              · exact hroot1 s r hm
            · exact hroot2 s r hm

theorem upsertLoop_segments (sch : SqlSchema) (fuel : Nat) :
    ∀ ms db db' tr, upsertLoop sch fuel ms db = some (db', tr) →
    ∃ segs : List (PVal × Nat × List DbEv),
      tr = (segs.map (fun t =>
        DbEv.primaryUpsert (tyOf t.1) t.2.1 :: t.2.2)).flatten ∧
      segs.map Prod.fst = ms ∧
      ∀ t ∈ segs, upsertCascade sch fuel t.2.1 (tyOf t.1) = some t.2.2 := by
  intro ms
  induction ms with
  | nil =>
    intro db db' tr h
    simp only [upsertLoop] at h
    cases h
    exact ⟨[], rfl, rfl, by intro t ht; cases ht⟩
  | cons m rest ih =>
    intro db db' tr h
    simp only [upsertLoop] at h
    cases hc : upsertCascade sch fuel
        ((storeRow db (tyOf m) (idColsOf m) m).1) (tyOf m) with
    | none => rw [hc] at h; cases h
    | some casc =>
      rw [hc] at h
      simp only [] at h
      cases hl : upsertLoop sch fuel rest
          ((storeRow db (tyOf m) (idColsOf m) m).2) with
      | none => rw [hl] at h; cases h
      | some pr =>
        obtain ⟨db₂, tr₂⟩ := pr
        rw [hl] at h
        simp only [] at h
        cases h
        obtain ⟨segs, htr, hms, hcasc⟩ := ih _ _ _ hl
        refine ⟨(m, (storeRow db (tyOf m) (idColsOf m) m).1, casc) :: segs,
          ?_, ?_, ?_⟩
        · simp only [List.map_cons, List.flatten, htr]
        · simp only [List.map_cons, hms]
        · intro t ht
          rcases List.mem_cons.mp ht with ht | ht
          · subst ht
            exact hc
          · exact hcasc t ht

/-- C6: in every successful upsert, the trace decomposes per model into a
primary upsert capturing a row id followed by that model's cascade; within
each cascade every executed statement binds exactly the captured root row
id (the same id at every nesting depth), and each part type's own
statements are executed before the cascade recurses into that part's nested
parts (the `CascadeShape` of the trace after the external-index block). -/
theorem C6_cascade_root_binding (sch : SqlSchema) (db : DB) (arg : ModelsArg)
    (ctr fuel : Nat) (out : ModelsArg) (db' : DB) (ctr' : Nat)
    (writes : List Nat) (trace : List DbEv)
    (h : upsertObjects sch db arg ctr fuel =
      (Except.ok out, db', ctr', writes, trace)) :
    ∃ segs : List (PVal × Nat × List DbEv),
      trace = DbEv.openCursor true :: (segs.map (fun t =>
        DbEv.primaryUpsert (tyOf t.1) t.2.1 :: t.2.2)).flatten ∧
      ∀ t ∈ segs,
        (∀ s r, DbEv.exec s r ∈ t.2.2 → r = t.2.1) ∧
        ∃ tail, t.2.2 = (sch.externalSqls (tyOf t.1)).map
            (fun s => DbEv.exec s t.2.1) ++ tail ∧
          CascadeShape sch t.2.1 (sch.partSqls (tyOf t.1)) tail := by
  unfold upsertObjects at h
  by_cases hmix : ((modelListOf arg).filter isPartVal).isEmpty = true
  · rw [if_pos hmix] at h
    cases ha : assignAll fuel (modelsAfterFilter arg) ⟨ctr, []⟩ with
    | none =>
      rw [ha] at h
      simp only [Prod.mk.injEq] at h
      cases h.1
    | some pr =>
      obtain ⟨targets, st⟩ := pr
      rw [ha] at h
      simp only [] at h
      cases hl : upsertLoop sch fuel targets db with
      | none =>
        rw [hl] at h
        simp only [Prod.mk.injEq] at h
        cases h.1
      | some pr2 =>
        obtain ⟨db₂, tr₂⟩ := pr2
        rw [hl] at h
        simp only [Prod.mk.injEq] at h
        obtain ⟨_, _, _, _, htr⟩ := h
        obtain ⟨segs, htr2, _, hcasc⟩ := upsertLoop_segments sch fuel _ _ _ _ hl
        refine ⟨segs, by rw [← htr, htr2], ?_⟩
        intro t ht
        obtain ⟨hroot, tail, htail, hshape⟩ :=
          ((cascade_props fuel).1 t.2.1 (tyOf t.1) t.2.2 (hcasc t ht))
        exact ⟨hroot, tail, htail, hshape⟩
  · rw [if_neg hmix] at h
    simp only [Prod.mk.injEq] at h
    cases h.1

theorem C6_cascade_root_binding_w :
    ∃ segs : List (PVal × Nat × List DbEv),
      [DbEv.openCursor true, DbEv.primaryUpsert "C" 0,
        DbEv.exec "extC" 0, DbEv.exec "insP" 0] =
        DbEv.openCursor true :: (segs.map (fun t =>
          DbEv.primaryUpsert (tyOf t.1) t.2.1 :: t.2.2)).flatten ∧
      ∀ t ∈ segs,
        (∀ s r, DbEv.exec s r ∈ t.2.2 → r = t.2.1) ∧
        ∃ tail, t.2.2 = (c6Sch.externalSqls (tyOf t.1)).map
            (fun s => DbEv.exec s t.2.1) ++ tail ∧
          CascadeShape c6Sch t.2.1 (c6Sch.partSqls (tyOf t.1)) tail :=
  C6_cascade_root_binding c6Sch emptyDb (ModelsArg.one c6Root) 0 5
    _ _ _ _ _ rfl

/-- C2 counterexample: `create_table`'s ordering generator schedules the
same type twice when the requested sequence repeats a type — the queue is
seeded with the arguments as given, and a type is only removed when it
occurs as a nested part of an earlier yielded type, so `[0, 0]` (with a
trivially acyclic, empty part relation) is scheduled as `[0, 0]`,
contradicting "never schedules the same type twice". -/
theorem C2_duplicate_schedule_cex :
    iterCreate noPartsPS 5 [0, 0] = some [0, 0] ∧
    ¬ ([0, 0] : List Nat).Nodup ∧
    noPartsPS.parts 0 = [] ∧ noPartsPS.container 0 = none := by
  refine ⟨rfl, by decide, rfl, rfl⟩

theorem Before.prepend {c x : Nat} {l : List Nat} (pre : List Nat)
    (h : Before c x l) : Before c x (pre ++ l) := by
  obtain ⟨u, v, hl, hc⟩ := h
  exact ⟨pre ++ u, v, by rw [hl, List.append_assoc], List.mem_append.mpr (Or.inr hc)⟩

theorem up_right_unique (ps : PartSchema) : Relator.RightUnique (Up ps) := by
  intro a b c hb hc
  unfold Up at hb hc
  rw [hb] at hc
  exact Option.some.inj hc

section CreationOrder

variable {ps : PartSchema}

theorem trav_mono : ∀ fuel : Nat,
    (∀ t l, travPart ps fuel t = some l → travPart ps (fuel+1) t = some l) ∧
    (∀ L l, travParts ps fuel L = some l → travParts ps (fuel+1) L = some l) := by
  intro fuel
  induction fuel with
  | zero =>
    constructor
    · intro t l h
      cases h
    · intro L l h
      cases h
  | succ fuel ih =>
    obtain ⟨ihP, ihL⟩ := ih
    constructor
    · intro t l h
      simp only [travPart] at h ⊢
      exact ihL _ _ h
    · intro L l h
      cases L with
      | nil =>
        simp only [travParts] at h ⊢
        exact h
      | cons p rest =>
        simp only [travParts] at h ⊢
        cases hp : travPart ps fuel p with
        | none => rw [hp] at h; cases h
        | some sub =>
          cases hr : travParts ps fuel rest with
          | none => rw [hp, hr] at h; cases h
          | some tail =>
            rw [hp, hr] at h
            rw [ihP _ _ hp, ihL _ _ hr]
            exact h

theorem travPart_le {f f' : Nat} (hle : f ≤ f') {t : Nat} {l : List Nat}
    (h : travPart ps f t = some l) : travPart ps f' t = some l := by
  induction hle with
  | refl => exact h
  | step hle ih =>
    rename_i f''
    exact (trav_mono f'').1 _ _ ih

theorem trav_mem_anc
    (Hcons : ∀ t c, t ∈ ps.parts c ↔ ps.container t = some c) :
    ∀ fuel : Nat,
    (∀ t l, travPart ps fuel t = some l → ∀ x ∈ l, Anc ps x t) ∧
    (∀ L l, travParts ps fuel L = some l →
      ∀ x ∈ l, ∃ p ∈ L, AncEq ps x p) := by
  intro fuel
  induction fuel with
  | zero =>
    constructor
    · intro t l h
      cases h
    · intro L l h
      cases h
  | succ fuel ih =>
    obtain ⟨ihP, ihL⟩ := ih
    constructor
    · intro t l h x hx
      simp only [travPart] at h
      obtain ⟨p, hp, hanc⟩ := ihL _ _ h x hx
      have hup : Up ps p t := (Hcons p t).mp hp
      exact Relation.TransGen.tail' hanc hup
    · intro L l h x hx
      cases L with
      | nil =>
        simp only [travParts] at h
        cases h
        cases hx
      | cons p rest =>
        simp only [travParts] at h
        cases hp : travPart ps fuel p with
        | none => rw [hp] at h; cases h
        | some sub =>
          cases hr : travParts ps fuel rest with
          | none => rw [hp, hr] at h; cases h
          | some tail =>
            rw [hp, hr] at h
            simp only [] at h
            cases h
            rcases List.mem_cons.mp hx with hx | hx
            · subst hx
              exact ⟨x, List.mem_cons_self _ _, Relation.ReflTransGen.refl⟩
            · rcases List.mem_append.mp hx with hx | hx
              · exact ⟨p, List.mem_cons_self _ _,
                  (ihP _ _ hp x hx).to_reflTransGen⟩
              · obtain ⟨q, hq, hanc⟩ := ihL _ _ hr x hx
                exact ⟨q, List.mem_cons_of_mem _ hq, hanc⟩

theorem trav_complete
    (Hcons : ∀ t c, t ∈ ps.parts c ↔ ps.container t = some c) :
    ∀ fuel : Nat,
    (∀ t l, travPart ps fuel t = some l → ∀ x, Anc ps x t → x ∈ l) ∧
    (∀ L l, travParts ps fuel L = some l →
      ∀ x, (∃ p ∈ L, AncEq ps x p) → x ∈ l) := by
  intro fuel
  induction fuel with
  | zero =>
    constructor
    · intro t l h
      cases h
    · intro L l h
      cases h
  | succ fuel ih =>
    obtain ⟨ihP, ihL⟩ := ih
    constructor
    · intro t l h x hanc
      simp only [travPart] at h
      obtain ⟨m, hrt, hup⟩ := Relation.TransGen.tail'_iff.mp hanc
      have hm : m ∈ ps.parts t := (Hcons m t).mpr hup
      exact ihL _ _ h x ⟨m, hm, hrt⟩
    · intro L l h x hex
      obtain ⟨q, hq, hanc⟩ := hex
      cases L with
      | nil => cases hq
      | cons p rest =>
        simp only [travParts] at h
        cases hp : travPart ps fuel p with
        | none => rw [hp] at h; cases h
        | some sub =>
          cases hr : travParts ps fuel rest with
          | none => rw [hp, hr] at h; cases h
          | some tail =>
            rw [hp, hr] at h
            simp only [] at h
            cases h
            rcases List.mem_cons.mp hq with hq | hq
            · subst hq
              rcases (Relation.reflTransGen_iff_eq_or_transGen.mp hanc) with
                heq | htg
              · subst heq
                exact List.mem_cons_self _ _
              · exact List.mem_cons_of_mem _
                  (List.mem_append.mpr (Or.inl (ihP _ _ hp x htg)))
            · exact List.mem_cons_of_mem _
                (List.mem_append.mpr (Or.inr (ihL _ _ hr x ⟨q, hq, hanc⟩)))

theorem travParts_member_fuel : ∀ fuel L l, travParts ps fuel L = some l →
    ∀ p ∈ L, ∃ f' < fuel, ∃ sub, travPart ps f' p = some sub := by
  intro fuel
  induction fuel with
  | zero =>
    intro L l h
    cases h
  | succ fuel ih =>
    intro L l h p hp
    cases L with
    | nil => cases hp
    | cons q rest =>
      simp only [travParts] at h
      cases hq : travPart ps fuel q with
      | none => rw [hq] at h; cases h
      | some sub =>
        cases hr : travParts ps fuel rest with
        | none => rw [hq, hr] at h; cases h
        | some tail =>
          rcases List.mem_cons.mp hp with hp | hp
          · subst hp
            exact ⟨fuel, Nat.lt_succ_self _, sub, hq⟩
          · obtain ⟨f', hf', sub', hsub'⟩ := ih rest tail hr p hp
            exact ⟨f', Nat.lt_trans hf' (Nat.lt_succ_self _), sub', hsub'⟩

theorem trav_cycle
    (Hcons : ∀ t c, t ∈ ps.parts c ↔ ps.container t = some c) :
    ∀ fuel t, Anc ps t t → travPart ps fuel t = none := by
  intro fuel
  induction fuel using Nat.strong_induction_on with
  | _ fuel ih =>
    intro t hcyc
    cases hl : travPart ps fuel t with
    | none => rfl
    | some l =>
      exfalso
      cases fuel with
      | zero => cases hl
      | succ fuel =>
        obtain ⟨m, hrt, hup⟩ := Relation.TransGen.tail'_iff.mp hcyc
        have hm : m ∈ ps.parts t := (Hcons m t).mpr hup
        simp only [travPart] at hl
        obtain ⟨f', hf', sub, hsub⟩ :=
          travParts_member_fuel fuel (ps.parts t) l hl m hm
        have hmcyc : Anc ps m m := Relation.TransGen.head' hup hrt
        have := ih f' (Nat.lt_trans hf' (Nat.lt_succ_self _)) m hmcyc
        rw [this] at hsub
        cases hsub

theorem anc_first_step {x c z : Nat} (hup : Up ps x c) (h : Anc ps x z) :
    AncEq ps c z := by
  obtain ⟨b, hb, hrt⟩ := Relation.TransGen.head'_iff.mp h
  rw [up_right_unique ps hup hb]
  exact hrt

theorem trav_nodup
    (Hcons : ∀ t c, t ∈ ps.parts c ↔ ps.container t = some c)
    (Hpnd : ∀ c, (ps.parts c).Nodup) :
    ∀ fuel : Nat,
    (∀ t l, travPart ps fuel t = some l → l.Nodup) ∧
    (∀ t₀ L l, travParts ps fuel L = some l → (∀ p ∈ L, Up ps p t₀) →
      L.Nodup → l.Nodup) := by
  intro fuel
  induction fuel with
  | zero =>
    constructor
    · intro t l h
      cases h
    · intro t₀ L l h
      cases h
  | succ fuel ih =>
    obtain ⟨ihP, ihL⟩ := ih
    constructor
    · intro t l h
      simp only [travPart] at h
      exact ihL t (ps.parts t) l h (fun p hp => (Hcons p t).mp hp) (Hpnd t)
    · intro t₀ L l h hL hnd
      cases L with
      | nil =>
        simp only [travParts] at h
        cases h
        exact List.nodup_nil
      | cons p rest =>
        simp only [List.nodup_cons] at hnd
        simp only [travParts] at h
        cases hp : travPart ps fuel p with
        | none => rw [hp] at h; cases h
        | some sub =>
          cases hr : travParts ps fuel rest with
          | none => rw [hp, hr] at h; cases h
          | some tail =>
            rw [hp, hr] at h
            simp only [] at h
            cases h
            have hup_p : Up ps p t₀ := hL p (List.mem_cons_self _ _)
            have hnocyc_p : ¬ Anc ps p p := by
              intro hc
              rw [trav_cycle Hcons fuel p hc] at hp
              cases hp
            have hnocyc_rest : ∀ q ∈ rest, ¬ Anc ps q q := by
              intro q hq hc
              obtain ⟨f', _, sub', hsub'⟩ :=
                travParts_member_fuel fuel rest tail hr q hq
              rw [trav_cycle Hcons f' q hc] at hsub'
              cases hsub'
            -- any member of tail sits under some q ∈ rest
            have htail_anc : ∀ x ∈ tail, ∃ q ∈ rest, AncEq ps x q :=
              fun x hx => (trav_mem_anc Hcons fuel).2 rest tail hr x hx
            have hsub_anc : ∀ x ∈ sub, Anc ps x p :=
              fun x hx => (trav_mem_anc Hcons fuel).1 p sub hp x hx
            have hpn_sub : p ∉ sub := by
              intro hmem
              exact hnocyc_p (hsub_anc p hmem)
            have hanc_pq_absurd : ∀ q ∈ rest, AncEq ps p q → False := by
              intro q hq hpq
              rcases Relation.reflTransGen_iff_eq_or_transGen.mp hpq with
                heq | htg
              · exact hnd.1 (heq ▸ hq)
              · have h1 : AncEq ps t₀ q := anc_first_step hup_p htg
                have h2 : Anc ps q q :=
                  Relation.TransGen.head' (hL q (List.mem_cons_of_mem _ hq)) h1
                exact hnocyc_rest q hq h2
            have hpn_tail : p ∉ tail := by
              intro hmem
              obtain ⟨q, hq, hpq⟩ := htail_anc p hmem
              exact hanc_pq_absurd q hq hpq
            have hdisj : ∀ x ∈ sub, x ∉ tail := by
              intro x hxs hxt
              obtain ⟨q, hq, hxq⟩ := htail_anc x hxt
              have hxp : AncEq ps x p := (hsub_anc x hxs).to_reflTransGen
              rcases Relation.ReflTransGen.total_of_right_unique
                  (up_right_unique ps) hxp hxq with hco | hco
              · exact hanc_pq_absurd q hq hco
              · rcases Relation.reflTransGen_iff_eq_or_transGen.mp hco with
                  heq | htg
                · exact hnd.1 (heq ▸ hq)
                · have h1 : AncEq ps t₀ p :=
                    anc_first_step (hL q (List.mem_cons_of_mem _ hq)) htg
                  have h2 : Anc ps p p :=
                    Relation.TransGen.head' hup_p h1
                  exact hnocyc_p h2
            have hrest_nodup : tail.Nodup := ihL t₀ rest tail hr
              (fun q hq => hL q (List.mem_cons_of_mem _ hq)) hnd.2
            have hsub_nodup : sub.Nodup := ihP p sub hp
            have happ : (sub ++ tail).Nodup := by
              rw [List.nodup_append]
              exact ⟨hsub_nodup, hrest_nodup, hdisj⟩
            refine List.Nodup.cons ?_ happ
            intro hmem
            rcases List.mem_append.mp hmem with hmem | hmem
            · exact hpn_sub hmem
            · exact hpn_tail hmem

theorem trav_order
    (Hcons : ∀ t c, t ∈ ps.parts c ↔ ps.container t = some c)
    (Hpnd : ∀ c, (ps.parts c).Nodup) :
    ∀ fuel : Nat,
    (∀ t l, travPart ps fuel t = some l → ∀ x ∈ l, ∀ c, Up ps x c →
      c ≠ t → Before c x l) ∧
    (∀ t₀ L l, travParts ps fuel L = some l → (∀ p ∈ L, Up ps p t₀) →
      ∀ x ∈ l, ∀ c, Up ps x c → c ≠ t₀ → Before c x l) := by
  intro fuel
  induction fuel with
  | zero =>
    constructor
    · intro t l h
      cases h
    · intro t₀ L l h
      cases h
  | succ fuel ih =>
    obtain ⟨ihP, ihL⟩ := ih
    constructor
    · intro t l h x hx c hup hc
      simp only [travPart] at h
      exact ihL t (ps.parts t) l h (fun p hp => (Hcons p t).mp hp) x hx c hup hc
    · intro t₀ L l h hL x hx c hup hc
      cases L with
      | nil =>
        simp only [travParts] at h
        cases h
        cases hx
      | cons p rest =>
        simp only [travParts] at h
        cases hp : travPart ps fuel p with
        | none => rw [hp] at h; cases h
        | some sub =>
          cases hr : travParts ps fuel rest with
          | none => rw [hp, hr] at h; cases h
          | some tail =>
            rw [hp, hr] at h
            simp only [] at h
            cases h
            rcases List.mem_cons.mp hx with hhead | hrest2
            · subst hhead
              exact absurd (up_right_unique ps hup
                (hL x (List.mem_cons_self _ _))) hc
            · rcases List.mem_append.mp hrest2 with hxs | hxt
              · by_cases hcp : c = p
                · subst hcp
                  obtain ⟨u, v, hsplit⟩ := List.append_of_mem hxs
                  refine ⟨c :: u, v ++ tail, ?_, List.mem_cons_self _ _⟩
                  rw [hsplit]
                  simp
                · obtain ⟨u, v, hsub2, hcu⟩ :=
                    ihP p sub hp x hxs c hup hcp
                  refine ⟨p :: u, v ++ tail, ?_,
                    List.mem_cons_of_mem _ hcu⟩
                  rw [hsub2]
                  simp
              · have hb := ihL t₀ rest tail hr
                  (fun q hq => hL q (List.mem_cons_of_mem _ hq)) x hxt c hup hc
                have := Before.prepend (p :: sub) hb
                simpa using this

theorem trav_block : ∀ fuel : Nat,
    (∀ t l, travPart ps fuel t = some l → ∀ x ∈ l,
      ∃ u tr v f', l = u ++ x :: tr ++ v ∧ travPart ps f' x = some tr) ∧
    (∀ L l, travParts ps fuel L = some l → ∀ x ∈ l,
      ∃ u tr v f', l = u ++ x :: tr ++ v ∧ travPart ps f' x = some tr) := by
  intro fuel
  induction fuel with
  | zero =>
    constructor
    · intro t l h
      cases h
    · intro L l h
      cases h
  | succ fuel ih =>
    obtain ⟨ihP, ihL⟩ := ih
    constructor
    · intro t l h x hx
      simp only [travPart] at h
      exact ihL _ _ h x hx
    · intro L l h x hx
      cases L with
      | nil =>
        simp only [travParts] at h
        cases h
        cases hx
      | cons p rest =>
        simp only [travParts] at h
        cases hp : travPart ps fuel p with
        | none => rw [hp] at h; cases h
        | some sub =>
          cases hr : travParts ps fuel rest with
          | none => rw [hp, hr] at h; cases h
          | some tail =>
            rw [hp, hr] at h
            simp only [] at h
            cases h
            rcases List.mem_cons.mp hx with hx | hx
            · subst hx
              exact ⟨[], sub, tail, fuel, by simp, hp⟩
            · rcases List.mem_append.mp hx with hx | hx
              · obtain ⟨u, tr, v, f', hsplit, htr⟩ := ihP p sub hp x hx
                refine ⟨p :: u, tr, v ++ tail, f', ?_, htr⟩
                rw [hsplit]
                simp
              · obtain ⟨u, tr, v, f', hsplit, htr⟩ := ihL rest tail hr x hx
                refine ⟨p :: sub ++ u, tr, v, f', ?_, htr⟩
                rw [hsplit]
                simp

theorem eraseAll_mem_iff : ∀ (xs q : List Nat), q.Nodup →
    ∀ x, (x ∈ eraseAll q xs ↔ x ∈ q ∧ x ∉ xs) := by
  intro xs
  induction xs with
  | nil =>
    intro q hq x
    simp [eraseAll]
  | cons p rest ih =>
    intro q hq x
    have hstep : eraseAll q (p :: rest) = eraseAll (q.erase p) rest := rfl
    rw [hstep, ih (q.erase p) (hq.erase p) x]
    rw [hq.mem_erase_iff]
    constructor
    · rintro ⟨⟨hxp, hxq⟩, hxr⟩
      refine ⟨hxq, ?_⟩
      intro hc
      rcases List.mem_cons.mp hc with hc | hc
      · exact hxp hc
      · exact hxr hc
    · rintro ⟨hxq, hxpr⟩
      refine ⟨⟨?_, hxq⟩, ?_⟩
      · intro hc
        exact hxpr (hc ▸ List.mem_cons_self _ _)
      · intro hc
        exact hxpr (List.mem_cons_of_mem _ hc)

theorem eraseAll_nodup : ∀ (xs q : List Nat), q.Nodup →
    (eraseAll q xs).Nodup := by
  intro xs
  induction xs with
  | nil =>
    intro q hq
    exact hq
  | cons p rest ih =>
    intro q hq
    exact ih (q.erase p) (hq.erase p)

theorem nodup_rotate {t : Nat} {rest : List Nat}
    (h : (t :: rest).Nodup) : (rest ++ [t]).Nodup := by
  simp only [List.nodup_cons] at h
  rw [List.nodup_append]
  refine ⟨h.2, List.nodup_singleton _, ?_⟩
  intro a ha hc
  rcases List.mem_singleton.mp hc with rfl
  exact h.1 ha

theorem mem_rotate {x t : Nat} {rest : List Nat} :
    x ∈ rest ++ [t] ↔ x ∈ t :: rest := by
  constructor
  · intro h
    rcases List.mem_append.mp h with h | h
    · exact List.mem_cons_of_mem _ h
    · rcases List.mem_singleton.mp h with rfl
      exact List.mem_cons_self _ _
  · intro h
    rcases List.mem_cons.mp h with h | h
    · exact List.mem_append.mpr (Or.inr (h ▸ List.mem_singleton_self _))
    · exact List.mem_append.mpr (Or.inl h)

theorem iterCreate_main
    (Hcons : ∀ t c, t ∈ ps.parts c ↔ ps.container t = some c)
    (Hpnd : ∀ c, (ps.parts c).Nodup)
    (types : List Nat)
    (Hclosed : ∀ t ∈ types, ∀ c, ps.container t = some c → c ∈ types) :
    ∀ fuel q (E : Nat → Prop) out,
      iterCreate ps fuel q = some out →
      q.Nodup →
      (∀ x ∈ q, x ∈ types) →
      (∀ x ∈ q, ¬ E x) →
      (∀ x ∈ types, E x ∨ x ∈ q) →
      (∀ e, E e → ∀ d, Anc ps d e → E d) →
      (∀ d, E d → ∀ a, Anc ps d a → a ∉ q) →
      (∀ x ∈ out, ¬ E x) ∧
      out.Nodup ∧
      (∀ x ∈ q, x ∈ out) ∧
      (∀ x ∈ out, x ∈ q ∨ ∃ c ∈ q, Anc ps x c) ∧
      (∀ t₀ c, t₀ ∈ q → ps.container t₀ = some c → c ∈ q →
        Before c t₀ out) ∧
      (∀ x ∈ out, ∃ u tr v f', out = u ++ x :: tr ++ v ∧
        travPart ps f' x = some tr) := by
  intro fuel
  induction fuel with
  | zero =>
    intro q E out h hnd hsub hqE hcov hdesc hI6
    cases q with
    | nil =>
      cases h
      refine ⟨?_, List.nodup_nil, ?_, ?_, ?_, ?_⟩
      · intro x hx
        cases hx
      · intro x hx
        cases hx
      · intro x hx
        cases hx
      · intro t₀ c ht₀
        cases ht₀
      · intro x hx
        cases hx
    | cons t rest => cases h
  | succ fuel ih =>
    intro q E out h hnd hsub hqE hcov hdesc hI6
    cases q with
    | nil =>
      cases h
      refine ⟨?_, List.nodup_nil, ?_, ?_, ?_, ?_⟩
      · intro x hx
        cases hx
      · intro x hx
        cases hx
      · intro x hx
        cases hx
      · intro t₀ c ht₀
        cases ht₀
      · intro x hx
        cases hx
    | cons t rest =>
      simp only [iterCreate] at h
      simp only [List.nodup_cons] at hnd
      by_cases hque : containerQueued ps t rest = true
      · -- defer branch: requeue t at the back
        rw [if_pos hque] at h
        have hnd' : (rest ++ [t]).Nodup := nodup_rotate (by
          rw [List.nodup_cons]; exact hnd)
        obtain ⟨c1, c2, c3, c4, c5, c6⟩ := ih (rest ++ [t]) E out h hnd'
          (fun x hx => hsub x (mem_rotate.mp hx))
          (fun x hx => hqE x (mem_rotate.mp hx))
          (fun x hx => (hcov x hx).imp id (fun hm => mem_rotate.mpr hm))
          hdesc
          (fun d hd a ha hc => hI6 d hd a ha (mem_rotate.mp hc))
        refine ⟨c1, c2, ?_, ?_, ?_, c6⟩
        · intro x hx
          exact c3 x (mem_rotate.mpr hx)
        · intro x hx
          rcases c4 x hx with hm | ⟨c, hc, hanc⟩
          · exact Or.inl (mem_rotate.mp hm)
          · exact Or.inr ⟨c, mem_rotate.mp hc, hanc⟩
        · intro t₀ c ht₀ hct₀ hc
          exact c5 t₀ c (mem_rotate.mpr ht₀) hct₀ (mem_rotate.mpr hc)
      · -- emit branch: yield t and its traversal
        rw [if_neg hque] at h
        cases htr : travPart ps (fuel+1) t with
        | none => rw [htr] at h; cases h
        | some sub =>
          rw [htr] at h
          simp only [] at h
          cases hrec : iterCreate ps fuel (eraseAll rest sub) with
          | none => rw [hrec] at h; cases h
          | some out' =>
            rw [hrec] at h
            simp only [] at h
            cases h
            have htin : t ∈ types := hsub t (List.mem_cons_self _ _)
            have hF4 : ¬ Anc ps t t := by
              intro hc
              rw [trav_cycle Hcons (fuel+1) t hc] at htr
              cases htr
            have hF2a : sub.Nodup :=
              (trav_nodup Hcons Hpnd (fuel+1)).1 t sub htr
            have hFmem : ∀ x ∈ sub, Anc ps x t :=
              fun x hx => (trav_mem_anc Hcons (fuel+1)).1 t sub htr x hx
            have hF2b : t ∉ sub := fun hmem => hF4 (hFmem t hmem)
            have hF3 : ∀ d, Anc ps d t → d ∈ sub :=
              fun d hd => (trav_complete Hcons (fuel+1)).1 t sub htr d hd
            have hq'iff : ∀ x, x ∈ eraseAll rest sub ↔ x ∈ rest ∧ x ∉ sub :=
              eraseAll_mem_iff sub rest hnd.2
            have hq'nd := eraseAll_nodup sub rest hnd.2
            have hTanc : ∀ a, Anc ps t a → a ∉ eraseAll rest sub := by
              intro a ha
              obtain ⟨b, hb, hrt⟩ := Relation.TransGen.head'_iff.mp ha
              cases hct : ps.container t with
              | none =>
                unfold Up at hb
                rw [hct] at hb
                cases hb
              | some c =>
                have hbc : c = b := by
                  unfold Up at hb
                  rw [hct] at hb
                  exact Option.some.inj hb
                subst hbc
                have hcnotin : c ∉ rest := by
                  intro hm
                  apply hque
                  unfold containerQueued
                  rw [hct]
                  simpa using hm
                have hcnet : c ≠ t := by
                  intro hc
                  exact hF4 (Relation.TransGen.single (by
                    unfold Up; rw [hct, hc]))
                have hcE : E c := by
                  rcases hcov c (Hclosed t htin c hct) with hE | hm
                  · exact hE
                  · rcases List.mem_cons.mp hm with hm | hm
                    · exact absurd hm hcnet
                    · exact absurd hm hcnotin
                rcases Relation.reflTransGen_iff_eq_or_transGen.mp hrt with
                  heq | htg
                · intro hm
                  rw [heq] at hm
                  exact hcnotin ((hq'iff c).mp hm).1
                · intro hm
                  exact hI6 c hcE a htg
                    (List.mem_cons_of_mem _ ((hq'iff a).mp hm).1)
            obtain ⟨c1, c2, c3, c4, c5, c6⟩ := ih (eraseAll rest sub)
              (fun x => E x ∨ x = t ∨ x ∈ sub) out' hrec hq'nd
              (fun x hx => hsub x
                (List.mem_cons_of_mem _ ((hq'iff x).mp hx).1))
              (by
                intro x hx
                obtain ⟨hxr, hxs⟩ := (hq'iff x).mp hx
                rintro (hE | rfl | hs)
                · exact hqE x (List.mem_cons_of_mem _ hxr) hE
                · exact hnd.1 hxr
                · exact hxs hs)
              (by
                intro x hxt
                rcases hcov x hxt with hE | hm
                · exact Or.inl (Or.inl hE)
                · rcases List.mem_cons.mp hm with rfl | hm
                  · exact Or.inl (Or.inr (Or.inl rfl))
                  · by_cases hs : x ∈ sub
                    · exact Or.inl (Or.inr (Or.inr hs))
                    · exact Or.inr ((hq'iff x).mpr ⟨hm, hs⟩))
              (by
                rintro e (hE | rfl | hs) d hde
                · exact Or.inl (hdesc e hE d hde)
                · exact Or.inr (Or.inr (hF3 d hde))
                · exact Or.inr (Or.inr (hF3 d (hde.trans (hFmem e hs)))))
              (by
                rintro d (hE | rfl | hs) a ha
                · intro hm
                  exact hI6 d hE a ha
                    (List.mem_cons_of_mem _ ((hq'iff a).mp hm).1)
                · exact hTanc a ha
                · rcases Relation.ReflTransGen.total_of_right_unique
                      (up_right_unique ps) ha.to_reflTransGen
                      (hFmem d hs).to_reflTransGen with hco | hco
                  · rcases Relation.reflTransGen_iff_eq_or_transGen.mp hco with
                      heq | htg
                    · intro hm
                      rw [← heq] at hm
                      exact hnd.1 ((hq'iff t).mp hm).1
                    · intro hm
                      exact ((hq'iff a).mp hm).2 (hF3 a htg)
                  · rcases Relation.reflTransGen_iff_eq_or_transGen.mp hco with
                      heq | htg
                    · intro hm
                      rw [heq] at hm
                      exact hnd.1 ((hq'iff t).mp hm).1
                    · exact hTanc a htg)
            have houtfresh : ∀ x ∈ out', x ≠ t ∧ x ∉ sub := by
              intro x hx
              have := c1 x hx
              push_neg at this
              exact ⟨this.2.1, this.2.2⟩
            refine ⟨?_, ?_, ?_, ?_, ?_, ?_⟩
            · -- freshness
              intro x hx
              rcases List.mem_cons.mp hx with rfl | hx
              · exact hqE x (List.mem_cons_self _ _)
              · rcases List.mem_append.mp hx with hx | hx
                · intro hE
                  exact hI6 x hE t (hFmem x hx) (List.mem_cons_self _ _)
                · intro hE
                  exact c1 x hx (Or.inl hE)
            · -- nodup
              have happ : (sub ++ out').Nodup := by
                rw [List.nodup_append]
                exact ⟨hF2a, c2, fun x hxs hxo => (houtfresh x hxo).2 hxs⟩
              refine List.Nodup.cons ?_ happ
              intro hmem
              rcases List.mem_append.mp hmem with hm | hm
              · exact hF2b hm
              · exact (houtfresh t hm).1 rfl
            · -- completeness
              intro x hx
              rcases List.mem_cons.mp hx with rfl | hx
              · exact List.mem_cons_self _ _
              · by_cases hs : x ∈ sub
                · exact List.mem_cons_of_mem _ (List.mem_append.mpr (Or.inl hs))
                · exact List.mem_cons_of_mem _ (List.mem_append.mpr
                    (Or.inr (c3 x ((hq'iff x).mpr ⟨hx, hs⟩))))
            · -- soundness
              intro x hx
              rcases List.mem_cons.mp hx with rfl | hx
              · exact Or.inl (List.mem_cons_self _ _)
              · rcases List.mem_append.mp hx with hx | hx
                · exact Or.inr ⟨t, List.mem_cons_self _ _, hFmem x hx⟩
                · rcases c4 x hx with hm | ⟨c, hc, hanc⟩
                  · exact Or.inl (List.mem_cons_of_mem _ ((hq'iff x).mp hm).1)
                  · exact Or.inr ⟨c, List.mem_cons_of_mem _
                      ((hq'iff c).mp hc).1, hanc⟩
            · -- creation order
              intro t₀ c ht₀ hct₀ hcq
              rcases List.mem_cons.mp ht₀ with rfl | ht₀r
              · rcases List.mem_cons.mp hcq with rfl | hcr
                · refine absurd (Relation.TransGen.single ?_) hF4
                  exact hct₀
                · exfalso
                  apply hque
                  unfold containerQueued
                  rw [hct₀]
                  simpa using hcr
              · rcases List.mem_cons.mp hcq with rfl | hcr
                · have ht₀sub : t₀ ∈ sub :=
                    hF3 t₀ (Relation.TransGen.single hct₀)
                  obtain ⟨u, v, hsplit⟩ := List.append_of_mem ht₀sub
                  refine ⟨c :: u, v ++ out', ?_, List.mem_cons_self _ _⟩
                  rw [hsplit]
                  simp
                · by_cases ht₀sub : t₀ ∈ sub
                  · have hcsub : c ∈ sub := by
                      have hcrt : AncEq ps c t :=
                        anc_first_step hct₀ (hFmem t₀ ht₀sub)
                      rcases Relation.reflTransGen_iff_eq_or_transGen.mp hcrt
                        with heq | htg
                      · exact absurd heq (by
                          intro hc
                          subst hc
                          exact hnd.1 hcr)
                      · exact hF3 c htg
                    have hcnet : c ≠ t := by
                      intro hc
                      subst hc
                      exact hnd.1 hcr
                    obtain ⟨u, v, hsplit, hcu⟩ :=
                      (trav_order Hcons Hpnd (fuel+1)).1 t sub htr t₀ ht₀sub
                        c hct₀ hcnet
                    refine ⟨t :: u, v ++ out', ?_, List.mem_cons_of_mem _ hcu⟩
                    rw [hsplit]
                    simp
                  · have ht₀q' : t₀ ∈ eraseAll rest sub :=
                      (hq'iff t₀).mpr ⟨ht₀r, ht₀sub⟩
                    by_cases hcsub : c ∈ sub
                    · have ht₀out : t₀ ∈ out' := c3 t₀ ht₀q'
                      obtain ⟨u, v, hsplit⟩ := List.append_of_mem ht₀out
                      refine ⟨t :: sub ++ u, v, ?_, ?_⟩
                      · rw [hsplit]
                        simp
                      · exact List.mem_cons_of_mem _
                          (List.mem_append.mpr (Or.inl hcsub))
                    · have hcq' : c ∈ eraseAll rest sub :=
                        (hq'iff c).mpr ⟨hcr, hcsub⟩
                      have hb := c5 t₀ c ht₀q' hct₀ hcq'
                      have := Before.prepend (t :: sub) hb
                      simpa using this
            · -- block structure
              intro x hx
              rcases List.mem_cons.mp hx with rfl | hx
              · exact ⟨[], sub, out', fuel+1, by simp, htr⟩
              · rcases List.mem_append.mp hx with hx | hx
                · obtain ⟨u, tr, v, f', hsplit, htrx⟩ :=
                    (trav_block (fuel+1)).1 t sub htr x hx
                  refine ⟨t :: u, tr, v ++ out', f', ?_, htrx⟩
                  rw [hsplit]
                  simp
                · obtain ⟨u, tr, v, f', hsplit, htrx⟩ := c6 x hx
                  refine ⟨t :: sub ++ u, tr, v, f', ?_, htrx⟩
                  rw [hsplit]
                  simp

end CreationOrder

/-- C2 (amended): for a duplicate-free list of requested types whose
declared part lists are duplicate-free and agree with the declared
container relation, and which is closed under taking declared containers,
any successful run of `create_table`'s ordering generator yields a
duplicate-free schedule that contains every requested type, contains only
requested types and their transitive part descendants, places each
requested type strictly after its container whenever that container is
also requested, and follows every scheduled type immediately by its full
depth-first part traversal. -/
theorem C2_creation_order
    (ps : PartSchema) (types : List Nat) (fuel : Nat) (out : List Nat)
    (Hcons : ∀ t c, t ∈ ps.parts c ↔ ps.container t = some c)
    (Hpnd : ∀ c, (ps.parts c).Nodup)
    (Hnd : types.Nodup)
    (Hclosed : ∀ t ∈ types, ∀ c, ps.container t = some c → c ∈ types)
    (hrun : iterCreate ps fuel types = some out) :
    out.Nodup ∧
    (∀ x ∈ types, x ∈ out) ∧
    (∀ x ∈ out, x ∈ types ∨ ∃ c ∈ types, Anc ps x c) ∧
    (∀ t₀ c, t₀ ∈ types → ps.container t₀ = some c → c ∈ types →
      Before c t₀ out) ∧
    (∀ x ∈ out, ∃ u tr v f', out = u ++ x :: tr ++ v ∧
      travPart ps f' x = some tr) := by
  obtain ⟨_, c2, c3, c4, c5, c6⟩ :=
    iterCreate_main Hcons Hpnd types Hclosed fuel types (fun _ => False) out
      hrun Hnd (fun _ hx => hx) (fun _ _ h => h)
      (fun _ hx => Or.inr hx) (fun _ h => h.elim) (fun _ h => h.elim)
  exact ⟨c2, c3, c4, c5, c6⟩

theorem C2_creation_order_w :
    ([0, 1] : List Nat).Nodup ∧ Before 0 1 [0, 1] := by
  have h := C2_creation_order c2ps [0, 1] 10 [0, 1]
    (by
      intro t c
      by_cases hc : c = 0 <;> by_cases ht : t = 1 <;>
        simp [c2ps, hc, ht] <;> omega)
    (by
      intro c
      by_cases hc : c = 0 <;> simp [c2ps, hc])
    (by decide)
    (by
      intro t ht c hc
      rcases List.mem_cons.mp ht with rfl | ht
      · exact absurd hc (by simp [c2ps])
      · rcases List.mem_cons.mp ht with rfl | ht
        · simp [c2ps] at hc
          simp [← hc]
        · cases ht)
    rfl
  exact ⟨by decide, h.2.2.2.1 1 0 (by decide) rfl (by decide)⟩

